import Mathlib

/-!
Verification of the fast-trie engine (src/index.js): a compressed radix trie
over pluggable key domains ("string" and "number"), with add / get / delete,
deferred bin sorting, lazy explosion and post-delete compaction.

The JavaScript source is embedded shallowly:

* values that may be plain values or MultiValue wrappers become the
  inductive type JVal;
* the dynamically typed options object becomes the record Opts, with one
  instance per configuration (string / number, with / without attr);
* JS exceptions (TypeError from calling a non-function, reading a
  property of undefined) become Except String;
* recursive node procedures take explicit fuel, since the source
  recursion has no syntactic termination argument; a run of the source
  that returns corresponds to a sufficiently fuelled .ok run here;
* a node's dynamically shaped `values` field (array in a terminal node,
  optional single value in a branching node) is split into the two fields
  tvals / ival, selected by isBranch exactly as the source selects on
  `this.edges`;
* the `edges` field is a JS array used as a table: character keys are
  plain properties (they do not affect `length` and are skipped by
  `for..of`), numeric keys are array indices (they grow `length`, and
  `for..of` visits every slot below `length`, holes included).  It is
  modelled as an entry list plus the JS `length`.

External collaborators declared out of scope by the design (the npm
packages binary-search-bounds and the sort primitive) are modelled from
the spec, marked below.
-/

namespace FastTrie

/-- Result of calling a configured comparator.  The source comparators
return a number, except the attribute-less string comparator, which
returns an inner arrow function (src/index.js line 448), and the
attribute-less numeric comparator applied to non-numbers, which yields
NaN.  All consumers coerce: sorting treats a non-number as 0 (JS NaN
comparator results), the dirty check `>= 0` and the equality check
`=== 0` are false on non-numbers. -/
inductive CmpRes where
  | num (n : Int)
  | fn
  | nan
  deriving DecidableEq, Repr

/-- JS `p === 0` on a comparator result. -/
def CmpRes.isZero : CmpRes → Bool
  | .num n => n = 0
  | _ => false

/-- JS `p >= 0` on a comparator result (false for a function or NaN). -/
def CmpRes.ge0 : CmpRes → Bool
  | .num n => 0 ≤ n
  | _ => false

/-- The number JS Array.prototype.sort uses for a comparator result:
ToNumber, with NaN treated as 0. -/
def CmpRes.sortVal : CmpRes → Int
  | .num n => n
  | _ => 0

/-- A stored entry: either a plain user value of base type B, or a
MultiValue wrapper (src/index.js lines 4-8) holding a list of entries
plus the cached key property that setKey stamps on it. -/
inductive JVal (K B : Type) where
  | base (b : B)
  | mv (cachedKey : Option K) (values : List (JVal K B))

/-- A non-absent result of get / delete: a bare value or a JS array of
values (coerceArray, src/index.js lines 35-38, and the filtered
MultiValue paths). -/
inductive Res (K B : Type) where
  | one (v : JVal K B)
  | many (vs : List (JVal K B))

/-- coerceArray (src/index.js lines 35-38): empty becomes undefined, a
singleton becomes the bare element, otherwise the array itself. -/
def coerceRes (l : List (JVal K B)) : Option (Res K B) :=
  match l with
  | [] => none
  | [x] => some (.one x)
  | xs => some (.many xs)

/-- A caller-supplied filter.  JS applies it both to defined values and,
on the miss path of Trie.get, to undefined; hence the Option argument. -/
def filterPass (f : Option (Option (JVal K B) → Bool)) (v : Option (JVal K B)) : Bool :=
  match f with
  | none => true
  | some f => f v

/-- One stable-insertion step: the new element goes after every already
placed element y with comparator(y, x) ≤ 0 (JS sort keeps equal elements
in order). -/
def insSorted (c : α → α → CmpRes) (x : α) : List α → List α
  | [] => [x]
  | y :: ys => if (c y x).sortVal ≤ 0 then y :: insSorted c x ys else x :: y :: ys

/-- Modelled from the spec: comparison-based sorting of a bin is assumed
available from an external sort utility (Array.prototype.sort in the
source).  A stable comparison sort; the comparator's non-number results
count as 0, as JS does with NaN. -/
def sortByC (c : α → α → CmpRes) (l : List α) : List α :=
  l.foldl (fun acc x => insSorted c x acc) []

/-- Modelled from the spec: binary search by equality on a sorted
sequence is assumed available from an external search utility
(bounds.eq in the source).  It reports an index whose element compares
equal (comparator result === 0) to the needle, or absent. -/
def eqSearch (c : α → α → CmpRes) (l : List α) (needle : α) : Option Nat :=
  l.findIdx? (fun x => (c x needle).isZero)

/-! ## The numeric key domain (class NumericKey, src/index.js lines 345-409)

Long values (the long package) are pairs of signed 32-bit words; here a
Long is a natural number below 2^64, its high and low words the unsigned
counterparts (all source operations on them — equality, masking, logical
shifts — are sign-independent).  Long.fromNumber / toNumber convert
through IEEE doubles; that rounding is outside this model, and every
concrete key below is exactly representable. -/

/-- cmp (src/index.js lines 345-370): number of leading equal nibbles of
two 32-bit words, by halving masks.  JS bitwise operations work on the
signed 32-bit views, but each mask equality and each shift used here
depends only on the bits the unsigned quotients keep. -/
def cmpJS (a b : Nat) : Nat :=
  if a = b then 8
  else
    -- (a & 0xFFFF0000) === (b & 0xFFFF0000): n += 4, else a >>= 16, b >>= 16
    -- (one conditional per reassigned variable, all on the same test)
    let n1 : Nat := if a / 2 ^ 16 = b / 2 ^ 16 then 4 else 0
    let a1 : Nat := if a / 2 ^ 16 = b / 2 ^ 16 then a else a / 2 ^ 16
    let b1 : Nat := if a / 2 ^ 16 = b / 2 ^ 16 then b else b / 2 ^ 16
    -- (a & 0xFF00) === (b & 0xFF00): n += 2, else a >>= 8, b >>= 8
    let n2 : Nat := if a1 / 2 ^ 8 % 2 ^ 8 = b1 / 2 ^ 8 % 2 ^ 8 then n1 + 2 else n1
    let a2 : Nat := if a1 / 2 ^ 8 % 2 ^ 8 = b1 / 2 ^ 8 % 2 ^ 8 then a1 else a1 / 2 ^ 8
    let b2 : Nat := if a1 / 2 ^ 8 % 2 ^ 8 = b1 / 2 ^ 8 % 2 ^ 8 then b1 else b1 / 2 ^ 8
    -- (a & 0xF0) === (b & 0xF0): n += 1
    if a2 / 2 ^ 4 % 2 ^ 4 = b2 / 2 ^ 4 % 2 ^ 4 then n2 + 1 else n2

/-- A numeric key: a 64-bit word plus its unit length in nibbles
(constructor NumericKey, src/index.js lines 372-376; length defaults to
16 for full keys). -/
structure NumericKey where
  value : Nat
  length : Nat
  deriving DecidableEq, Repr

/-- The high signed-32 word of the Long, as its unsigned value. -/
def NumericKey.high (k : NumericKey) : Nat := k.value / 2 ^ 32

/-- The low signed-32 word of the Long, as its unsigned value. -/
def NumericKey.low (k : NumericKey) : Nat := k.value % 2 ^ 32

/-- NumericKey.charAt (src/index.js lines 378-381): the nibble at
position pos, counted from the most significant (value >>> (64-(pos+1)*4)
& 0xF).  Positions ≥ 16 do not occur in the engine. -/
def NumericKey.charAtJS (k : NumericKey) (pos : Nat) : Nat :=
  k.value / 2 ^ (64 - (pos + 1) * 4) % 16

/-- NumericKey.match (src/index.js lines 383-398). -/
def NumericKey.matchJS (a b : NumericKey) : Nat :=
  if a.length = b.length ∧ a.high = b.high ∧ a.low = b.low then a.length
  else
    let n := Nat.min a.length b.length
    if 0 < n then
      if a.high = b.high then Nat.min n (cmpJS a.low b.low + 8)
      else Nat.min n (cmpJS a.high b.high)
    else n

/-- NumericKey.prefix (src/index.js lines 400-404): clears the low
64 - 4n bits.  The long package masks shift amounts with & 63 and
returns the value unchanged on a zero shift, so n = 0 and n = 16 leave
the word as it is.  The toNumber round trip is modelled as exact. -/
def NumericKey.pfxJS (k : NumericKey) (n : Nat) : NumericKey :=
  let y := 64 - 4 * n
  let v := if y % 64 = 0 then k.value else k.value / 2 ^ y * 2 ^ y
  ⟨v, n⟩

/-! ## The string key domain (KEY_TYPES.string, src/index.js lines 412-466)

Keys are JS strings indexed by UTF-16 units; the claims use ASCII keys,
for which the units are the characters of the Lean string. -/

/-- The length of the longest common prefix of two unit sequences: walk
from index 0 to the first mismatch, capped by the shorter length
(KEY_TYPES.string.match, src/index.js lines 452-461, and the
specification of the numeric match). -/
def lcpUnits [DecidableEq α] : List α → List α → Nat
  | x :: xs, y :: ys => if x = y then lcpUnits xs ys + 1 else 0
  | _, _ => 0

/-- String match on the unit lists. -/
def strMatchJS (a b : String) : Nat := lcpUnits a.data b.data

/-- String.prototype.charAt: the one-character string at index i, or the
empty string out of range. -/
def strCharAtJS (s : String) (i : Nat) : String :=
  match s.data[i]? with
  | some c => String.mk [c]
  | none => ""

/-- KEY_TYPES.string.prefix (src/index.js lines 462-464): substr(0, n). -/
def strPfxJS (s : String) (n : Nat) : String := String.mk (s.data.take n)

/-- String length in units. -/
def strLen (s : String) : Nat := s.data.length

/-- JS three-way string comparison a < b ? -1 : (a > b ? 1 : 0):
lexicographic on UTF-16 units. -/
def lexNum : List Char → List Char → Int
  | [], [] => 0
  | [], _ :: _ => -1
  | _ :: _, [] => 1
  | x :: xs, y :: ys =>
    if x.val < y.val then -1 else if y.val < x.val then 1 else lexNum xs ys

/-! ## The resolved options record (Trie constructor, src/index.js 510-529)

One record per configuration, holding the per-domain functions the engine
dispatches through.  K is the internal key type, B the base value type,
U the key-unit type (charAt results).  setKey is split by call shape:
mkNeedle is setKey({}, key) (the synthetic search carrier of _search and
delete), setKeyMV is the setKey used by assign on a fresh MultiValue.
Both may raise (the attribute-less numeric setKey calls key.value(), a
data field — TypeError). -/

structure Opts (K B U : Type) where
  uniqueKeys : Bool
  binSize : Nat
  getKey : JVal K B → K
  mkNeedle : K → Except String (JVal K B)
  setKeyMV : JVal K B → K → Except String (JVal K B)
  comparator : JVal K B → JVal K B → CmpRes
  matchK : K → K → Nat
  pfxK : K → Nat → K
  keyLen : K → Nat
  charAtK : K → Nat → U
  emptyPfx : K
  isIndexE : Option U → Option Nat
  truthy : JVal K B → Bool

/-! ## Nodes and edge tables

The edge table of a branching node (`this.edges = []`) is a JS array
indexed by key units.  An edge key is Option U: `some u` for a charAt
result, `none` for the property literally named "undefined" that
_explode creates when a value's key ends at the prefix inside a group
(`this.edges[x]` with x === undefined).  The entry list carries the
properties; elen carries the JS `length`, which only index-shaped keys
(isIndexE) grow and which `delete` never shrinks. -/

inductive RNode (K B U : Type) where
  | mk (skip : K) (isBranch : Bool) (edges : List (Option U × RNode K B U))
      (elen : Nat) (tvals : List (JVal K B)) (ival : Option (JVal K B)) (dirty : Bool)

namespace RNode

def skip : RNode K B U → K
  | .mk s _ _ _ _ _ _ => s

def isBranch : RNode K B U → Bool
  | .mk _ b _ _ _ _ _ => b

def edges : RNode K B U → List (Option U × RNode K B U)
  | .mk _ _ e _ _ _ _ => e

def elen : RNode K B U → Nat
  | .mk _ _ _ n _ _ _ => n

def tvals : RNode K B U → List (JVal K B)
  | .mk _ _ _ _ t _ _ => t

def ival : RNode K B U → Option (JVal K B)
  | .mk _ _ _ _ _ v _ => v

def dirty : RNode K B U → Bool
  | .mk _ _ _ _ _ _ d => d

end RNode

/-- Property lookup edges[x]. -/
def edLookup [DecidableEq U] (es : List (Option U × RNode K B U)) (x : Option U) :
    Option (RNode K B U) :=
  (es.find? (fun p => p.1 = x)).map (·.2)

/-- Property write edges[x] = n (replace or append; one entry per key). -/
def edSetEntries [DecidableEq U] (es : List (Option U × RNode K B U)) (x : Option U)
    (n : RNode K B U) : List (Option U × RNode K B U) :=
  match es with
  | [] => [(x, n)]
  | (k, v) :: rest =>
    if k = x then (x, n) :: rest else (k, v) :: edSetEntries rest x n

/-- The JS array length after edges[x] = n: an index key i forces
length ≥ i + 1, other keys leave it alone. -/
def edLenAfter (o : Opts K B U) (elen : Nat) (x : Option U) : Nat :=
  match o.isIndexE x with
  | some i => Nat.max elen (i + 1)
  | none => elen

/-- `delete edges[path]` removes the property and leaves length alone. -/
def edDelEntries [DecidableEq U] (es : List (Option U × RNode K B U)) (x : Option U) :
    List (Option U × RNode K B U) :=
  es.filter (fun p => ¬ p.1 = x)

/-- The array slot at index i: the entry whose key is the index i, a hole
(undefined) otherwise.  `for..of` over the edge table yields the slots
0, …, length-1 in order. -/
def edSlot [DecidableEq U] (o : Opts K B U) (es : List (Option U × RNode K B U)) (i : Nat) :
    Option (RNode K B U) :=
  (es.find? (fun p => o.isIndexE p.1 = some i)).map (·.2)

/-- assign (src/index.js lines 23-33): replace under uniqueKeys or when
there is no prior value, append to an existing MultiValue, otherwise wrap
both in a fresh MultiValue and stamp its key via setKey. -/
def assign (o : Opts K B U) (newVal : JVal K B) (oldVal : Option (JVal K B)) :
    Except String (JVal K B) :=
  match oldVal with
  | none => .ok newVal
  | some old =>
    if o.uniqueKeys then .ok newVal
    else
      match old with
      | .mv ck vs => .ok (.mv ck (vs ++ [newVal]))
      | .base b => o.setKeyMV (.mv none [.base b, newVal]) (o.getKey newVal)

/-- commonPrefix (src/index.js lines 11-21): the shared prefix of the
first and last values' keys (the bin is assumed sorted). -/
def commonPfx (o : Opts K B U) : List (JVal K B) → K
  | [] => o.emptyPfx
  | [v] => o.getKey v
  | v :: w :: rest =>
    let first := o.getKey v
    let last := o.getKey ((w :: rest).getLastD w)
    o.pfxK first (o.matchK first last)

/-- The dedup walk of _sortValues (src/index.js lines 172-184) on the
sorted bin: adjacent comparator-equal entries are folded by assign. -/
def dedupRun (o : Opts K B U) :
    JVal K B → List (JVal K B) → List (JVal K B) → Except String (List (JVal K B))
  | cur, acc, [] => .ok ((cur :: acc).reverse)
  | cur, acc, y :: ys =>
    if (o.comparator cur y).isZero then
      match assign o y (some cur) with
      | .ok m => dedupRun o m acc ys
      | .error e => .error e
    else dedupRun o y (cur :: acc) ys

/-- _sortValues (src/index.js lines 165-186): when dirty, sort the bin,
clear the flag, and collapse comparator-equal neighbours; otherwise leave
the bin alone.  Returns the new bin and dirty flag. -/
def sortValues (o : Opts K B U) (tvals : List (JVal K B)) (dirty : Bool) :
    Except String (List (JVal K B) × Bool) :=
  if dirty then
    match sortByC o.comparator tvals with
    | [] => .ok ([], false)
    | [x] => .ok ([x], false)
    | x :: xs =>
      match dedupRun o x [] xs with
      | .ok l => .ok (l, false)
      | .error e => .error e
  else .ok (tvals, dirty)

/-- _insert (src/index.js lines 129-142) on a terminal node's data:
shrink skip to the common prefix when the match is partial, flag dirty
when the new value is not greater than the bin's last element, push. -/
def insertT (o : Opts K B U) (node : RNode K B U) (key : K) (value : JVal K B) :
    RNode K B U :=
  match node with
  | .mk skip isBr es elen tvals ival dirty =>
    let n := o.matchK key skip
    let skip1 := if n ≠ o.keyLen skip then o.pfxK skip n else skip
    let dirty1 :=
      match tvals.getLast? with
      | some last => if (o.comparator last value).ge0 then true else dirty
      | none => dirty
    .mk skip1 isBr es elen (tvals ++ [value]) ival dirty1

/-- The next-unit label _explode computes for a value (src/index.js
lines 309-312): undefined when the key ends at the prefix, else the unit
at the prefix length. -/
def nextCharOf (o : Opts K B U) (prefixLen : Nat) (v : JVal K B) : Option U :=
  let k := o.getKey v
  if o.keyLen k = prefixLen then none else some (o.charAtK k prefixLen)

mutual

/-- new Node(values, options) (src/index.js lines 73-79): skip is the
common prefix of the values, the node starts terminal and clean, then
_explode runs. -/
def mkNodeF (o : Opts K B U) [DecidableEq U] :
    Nat → List (JVal K B) → Except String (RNode K B U)
  | 0, _ => .error "fuel"
  | fuel + 1, values =>
    explodeF o fuel (.mk (commonPfx o values) false [] 0 values none false)

/-- _explode (src/index.js lines 287-337): a terminal bin that exceeds
binSize even after sort-and-dedup becomes a branching node — common
prefix recomputed, a first value whose key ends at the prefix pulled out
as the internal value, and one child per run of equal next units. -/
def explodeF (o : Opts K B U) [DecidableEq U] :
    Nat → RNode K B U → Except String (RNode K B U)
  | 0, _ => .error "fuel"
  | fuel + 1, node =>
    match node with
    | .mk skip isBr es elen tvals ival dirty =>
      if tvals.length ≤ o.binSize then .ok (.mk skip isBr es elen tvals ival dirty)
      else
        match sortValues o tvals dirty with
        | .error e => .error e
        | .ok (vals1, d1) =>
          if vals1.length ≤ o.binSize then .ok (.mk skip isBr es elen vals1 ival d1)
          else
            let skip1 := commonPfx o vals1
            let prefixLen := o.keyLen skip1
            let pairs := vals1.map (fun v => (nextCharOf o prefixLen v, v))
            match pairs with
            | [] => .ok (.mk skip1 true [] 0 [] none d1)
            | (x0, v0) :: rest =>
              if x0 = (none : Option U) then
                match buildRunsF o fuel rest [] 0 with
                | .error e => .error e
                | .ok (es1, el1) => .ok (.mk skip1 true es1 el1 [] (some v0) d1)
              else
                match buildRunsF o fuel ((x0, v0) :: rest) [] 0 with
                | .error e => .error e
                | .ok (es1, el1) => .ok (.mk skip1 true es1 el1 [] none d1)

/-- The edge-population loop of _explode (src/index.js lines 323-336):
take the maximal run sharing the current unit, build a child from its
slice, store it at the unit, continue after the run. -/
def buildRunsF (o : Opts K B U) [DecidableEq U] :
    Nat → List (Option U × JVal K B) → List (Option U × RNode K B U) → Nat →
      Except String (List (Option U × RNode K B U) × Nat)
  | 0, _, _, _ => .error "fuel"
  | _ + 1, [], acc, elen => .ok (acc, elen)
  | fuel + 1, (x, v) :: rest, acc, elen =>
    let run := (x, v) :: rest.takeWhile (fun p => p.1 = x)
    let rest1 := rest.dropWhile (fun p => p.1 = x)
    match mkNodeF o fuel (run.map Prod.snd) with
    | .error e => .error e
    | .ok child =>
      buildRunsF o fuel rest1 (edSetEntries acc x child) (edLenAfter o elen x)

end

/-- Node.add (src/index.js lines 82-126). -/
def addF (o : Opts K B U) [DecidableEq U] :
    Nat → RNode K B U → K → JVal K B → Except String (RNode K B U)
  | 0, _, _, _ => .error "fuel"
  | fuel + 1, node, key, value =>
    match node with
    | .mk skip isBr es elen tvals ival dirty =>
      if isBr = false then
        -- terminal: _insert then _explode
        explodeF o fuel (insertT o (.mk skip isBr es elen tvals ival dirty) key value)
      else
        let n := o.matchK key skip
        if n = o.keyLen skip then
          if n = o.keyLen key then
            match assign o value ival with
            | .error e => .error e
            | .ok iv1 => .ok (.mk skip isBr es elen tvals (some iv1) dirty)
          else
            let x := o.charAtK key (o.keyLen skip)
            match edLookup es (some x) with
            | some c =>
              match addF o fuel c key value with
              | .error e => .error e
              | .ok c1 =>
                -- the child is mutated in place; no array write, length kept
                .ok (.mk skip isBr (edSetEntries es (some x) c1) elen tvals ival dirty)
            | none =>
              match mkNodeF o fuel [value] with
              | .error e => .error e
              | .ok child =>
                .ok (.mk skip isBr (edSetEntries es (some x) child)
                  (edLenAfter o elen (some x)) tvals ival dirty)
        else
          -- split: the child inherits skip, edges and values; this node
          -- keeps a fresh jump table with the child under the split unit
          let pfx := o.pfxK skip n
          let cx := o.charAtK skip (o.keyLen pfx)
          let child : RNode K B U := .mk skip isBr es elen tvals ival false
          let node1 : RNode K B U :=
            .mk pfx true (edSetEntries [] (some cx) child) (edLenAfter o 0 (some cx))
              [] none dirty
          addF o fuel node1 key value

/-- Node.get via find (src/index.js lines 40-69 and 144-163), with the
_sortValues mutation of the hit terminal threaded through. -/
def getF (o : Opts K B U) [DecidableEq U] :
    Nat → RNode K B U → K → Except String (Option (JVal K B) × RNode K B U)
  | 0, _, _ => .error "fuel"
  | fuel + 1, node, key =>
    match node with
    | .mk skip isBr es elen tvals ival dirty =>
      let n := o.matchK key skip
      if n ≠ o.keyLen skip then .ok (none, .mk skip isBr es elen tvals ival dirty)
      else if isBr = false then
        -- terminal: _search (src/index.js lines 158-163)
        match sortValues o tvals dirty with
        | .error e => .error e
        | .ok (vals1, d1) =>
          match o.mkNeedle key with
          | .error e => .error e
          | .ok needle =>
            let res := (eqSearch o.comparator vals1 needle).bind (fun i => vals1[i]?)
            .ok (res, .mk skip isBr es elen vals1 ival d1)
      else if n = o.keyLen key then
        .ok (ival, .mk skip isBr es elen tvals ival dirty)
      else
        let x := o.charAtK key (o.keyLen skip)
        match edLookup es (some x) with
        | none => .ok (none, .mk skip isBr es elen tvals ival dirty)
        | some c =>
          match getF o fuel c key with
          | .error e => .error e
          | .ok (r, c1) =>
            .ok (r, .mk skip isBr (edSetEntries es (some x) c1) elen tvals ival dirty)

/-- _delete (src/index.js lines 232-256): split an entry into the part
kept and the part removed under the filter.  Returns (keep, removed,
mutated entry): a MultiValue is mutated in place to hold the survivors,
and the bin slot keeps pointing at it. -/
def deleteSplit (filter : Option (Option (JVal K B) → Bool)) :
    Option (JVal K B) →
      Option (JVal K B) × Option (Res K B) × Option (JVal K B)
  | some (.mv ck vs) =>
    let removedL := vs.filter (fun x => filterPass filter (some x))
    let keepL := vs.filter (fun x => ¬ filterPass filter (some x))
    let val1 : JVal K B := .mv ck keepL
    let keep : Option (JVal K B) :=
      match keepL with
      | [] => none
      | [x] => some x
      | _ => some val1
    (keep, coerceRes removedL, some val1)
  | some v =>
    if filterPass filter (some v) then (none, some (.one v), some v)
    else (some v, none, some v)
  | none =>
    -- _delete(undefined, filter): the filter may run on undefined;
    -- keep and removed are both undefined either way
    (none, none, none)

mutual

/-- Node.delete (src/index.js lines 189-230). -/
def deleteF (o : Opts K B U) [DecidableEq U] :
    Nat → RNode K B U → K → Option (Option (JVal K B) → Bool) →
      Except String (Option (Res K B) × RNode K B U)
  | 0, _, _, _ => .error "fuel"
  | fuel + 1, node, key, filter =>
    match node with
    | .mk skip isBr es elen tvals ival dirty =>
      let n := o.matchK key skip
      if n ≠ o.keyLen skip then .ok (none, .mk skip isBr es elen tvals ival dirty)
      else if isBr = false then
        -- terminal: sort, search by equality, split the found entry
        match sortValues o tvals dirty with
        | .error e => .error e
        | .ok (vals1, d1) =>
          match o.mkNeedle key with
          | .error e => .error e
          | .ok needle =>
            match eqSearch o.comparator vals1 needle with
            | none => .ok (none, .mk skip isBr es elen vals1 ival d1)
            | some idx =>
              match vals1[idx]? with
              | none => .ok (none, .mk skip isBr es elen vals1 ival d1)
              | some entry =>
                let r := deleteSplit filter (some entry)
                let bin1 :=
                  match r.1, r.2.2 with
                  | none, _ => vals1.eraseIdx idx
                  | some _, some v1 => vals1.set idx v1
                  | some _, none => vals1
                .ok (r.2.1, .mk skip isBr es elen bin1 ival d1)
      else if n = o.keyLen key then
        -- internal value slot
        let r := deleteSplit filter ival
        .ok (r.2.1, .mk skip isBr es elen tvals r.1 dirty)
      else
        let x := o.charAtK key (o.keyLen skip)
        match edLookup es (some x) with
        | none => .ok (none, .mk skip isBr es elen tvals ival dirty)
        | some c =>
          match deleteF o fuel c key filter with
          | .error e => .error e
          | .ok (ret, c1) =>
            let node1 : RNode K B U :=
              .mk skip isBr (edSetEntries es (some x) c1) elen tvals ival dirty
            match ret with
            | none => .ok (none, node1)
            | some r =>
              match compactF o fuel node1 (some x) c1 with
              | .error e => .error e
              | .ok node2 => .ok (some r, node2)

/-- _compact (src/index.js lines 258-284).  The edge count comes from
`for..of` over the JS array: it visits exactly `length` slots (character
keys are invisible to it, holes count), and the loop variable ends as the
last slot's content.  With zero visited slots the node collapses to a
terminal around its internal value (dropped when falsy); with one visited
slot and no internal value the node becomes that slot's child — a
TypeError when the slot is a hole. -/
def compactF (o : Opts K B U) [DecidableEq U] :
    Nat → RNode K B U → Option U → RNode K B U → Except String (RNode K B U)
  | 0, _, _, _ => .error "fuel"
  | _ + 1, node, path, child =>
    match node with
    | .mk skip isBr es elen tvals ival dirty =>
      if child.isBranch = false && child.tvals.isEmpty then
        let es1 := edDelEntries es path
        let edgeCount := elen
        if edgeCount = 0 then
          let tv : List (JVal K B) :=
            match ival with
            | some iv => if o.truthy iv then [iv] else []
            | none => []
          .ok (.mk skip false [] 0 tv none false)
        else if edgeCount = 1 && ival.isNone then
          match edSlot o es1 0 with
          | none => .error "TypeError: cannot read properties of undefined"
          | some c => .ok c
        else .ok (.mk skip isBr es1 elen tvals ival dirty)
      else .ok (.mk skip isBr es elen tvals ival dirty)

end

/-- The empty root node the Trie constructor builds (new Node([], opts)). -/
def emptyRoot (o : Opts K B U) : RNode K B U :=
  .mk o.emptyPfx false [] 0 [] none false

/-- Trie.add (src/index.js lines 531-534). -/
def trieAdd (o : Opts K B U) [DecidableEq U] (fuel : Nat) (root : RNode K B U)
    (value : JVal K B) : Except String (RNode K B U) :=
  addF o fuel root (o.getKey value) value

/-- Trie.get (src/index.js lines 536-550) on an already lifted key: a
MultiValue hit is unwrapped, filtered and coerced; any other result is
passed through the filter (which also sees undefined on a miss). -/
def trieGetK (o : Opts K B U) [DecidableEq U] (fuel : Nat) (root : RNode K B U)
    (key : K) (filter : Option (Option (JVal K B) → Bool)) :
    Except String (Option (Res K B) × RNode K B U) :=
  match getF o fuel root key with
  | .error e => .error e
  | .ok (ret, root1) =>
    match ret with
    | some (.mv _ vs) =>
      let l := match filter with
        | none => vs
        | some f => vs.filter (fun x => f (some x))
      .ok (coerceRes l, root1)
    | _ =>
      if filterPass filter ret then .ok (ret.map Res.one, root1)
      else .ok (none, root1)

/-- Trie.delete (src/index.js lines 552-559): delegate to the root, then
reset skip when the root is a terminal with an empty bin. -/
def trieDeleteK (o : Opts K B U) [DecidableEq U] (fuel : Nat) (root : RNode K B U)
    (key : K) (filter : Option (Option (JVal K B) → Bool)) :
    Except String (Option (Res K B) × RNode K B U) :=
  match deleteF o fuel root key filter with
  | .error e => .error e
  | .ok (ret, root1) =>
    if root1.isBranch = false && root1.tvals.isEmpty then
      .ok (ret, .mk o.emptyPfx root1.isBranch root1.edges root1.elen root1.tvals
        root1.ival root1.dirty)
    else .ok (ret, root1)

/-! ## Configuration instances

Four configurations are exercised by the claims: key type "string" and
"number", each with and without a configured attr.  Each instance fills
the Opts record with the functions the Trie constructor would resolve
from KEY_TYPES (src/index.js lines 411-529). -/

/-- JS array index test for string property keys: a canonical numeric
string is an index — so among the keys that can reach an edge table
(single charAt units, the empty string, "undefined") exactly the digit
units "0"-"9" are indices. -/
def strIsIndexE : Option String → Option Nat
  | some s =>
    match s.data with
    | [c] => if '0' ≤ c ∧ c ≤ '9' then some (c.toNat - '0'.toNat) else none
    | _ => none
  | none => none

/-- Numeric units (nibbles 0-15) are always array indices. -/
def numIsIndexE : Option Nat → Option Nat
  | some n => some n
  | none => none

/-- KEY_TYPES.string.getKey without attr (src/index.js line 420): the
value is its own key; a MultiValue carries the cached key property.  An
unstamped MultiValue would read undefined; assign stamps every MultiValue
it creates, so that path is not reachable and is modelled as "". -/
def soGetKey : JVal String String → String
  | .base s => s
  | .mv ck _ => ck.getD ""

/-- KEY_TYPES.string.comparator without attr (src/index.js lines
445-449): after unwrapping its arguments it returns the inner arrow
function instead of a number — the result is always a function value. -/
def soComparator (_ _ : JVal String String) : CmpRes := .fn

/-- The attribute-less string configuration (the default:
new Trie()). -/
def soOpts (uniq : Bool) (binSize : Nat) : Opts String String String where
  uniqueKeys := uniq
  binSize := binSize
  getKey := soGetKey
  -- setKey({}, key) without attr: the carrier is not a MultiValue, so
  -- setKey returns the key itself (src/index.js lines 427-434)
  mkNeedle := fun k => .ok (.base k)
  setKeyMV := fun v k =>
    match v with
    | .mv _ vs => .ok (.mv (some k) vs)
    | .base _ => .ok (.base k)
  comparator := soComparator
  matchK := strMatchJS
  pfxK := strPfxJS
  keyLen := strLen
  charAtK := strCharAtJS
  emptyPfx := ""
  isIndexE := strIsIndexE
  truthy := fun v => match v with | .base s => decide (s ≠ "") | .mv _ _ => true

/-- A value stored under a string attr: the key attribute plus an opaque
payload distinguishing values that share a key. -/
structure AVal where
  k : String
  payload : Nat
  deriving DecidableEq, Repr

/-- x[attr] for the string-attr configuration: the key attribute of a
plain value, the stamped attribute of a MultiValue (unstamped
MultiValues are unreachable, modelled as ""). -/
def saAttrOf : JVal String AVal → String
  | .base v => v.k
  | .mv ck _ => ck.getD ""

/-- KEY_TYPES.string.comparator with attr (src/index.js lines 438-443):
three-way comparison of the attr fields. -/
def saComparator (a b : JVal String AVal) : CmpRes :=
  .num (lexNum (saAttrOf a).data (saAttrOf b).data)

/-- The string configuration with a configured attr.  The needle
setKey({}, key) is the object holding only the attr; its payload never
participates in comparison and is never returned, modelled as 0. -/
def saOpts (uniq : Bool) (binSize : Nat) : Opts String AVal String where
  uniqueKeys := uniq
  binSize := binSize
  getKey := saAttrOf
  mkNeedle := fun k => .ok (.base ⟨k, 0⟩)
  setKeyMV := fun v k =>
    match v with
    | .mv _ vs => .ok (.mv (some k) vs)
    | .base b => .ok (.base { b with k := k })
  comparator := saComparator
  matchK := strMatchJS
  pfxK := strPfxJS
  keyLen := strLen
  charAtK := strCharAtJS
  emptyPfx := ""
  isIndexE := strIsIndexE
  truthy := fun _ => true

/-- KEY_TYPES.number.getKey without attr (src/index.js line 475): lift
the value (its own key) into a fresh full-length NumericKey; a MultiValue
reads its cached key property (NumericKey(undefined) would be
Long.fromNumber(NaN) = 0). -/
def noGetKey : JVal NumericKey Nat → NumericKey
  | .base n => ⟨n, 16⟩
  | .mv ck _ =>
    match ck with
    | some c => ⟨c.value, 16⟩
    | none => ⟨0, 16⟩

/-- KEY_TYPES.number.comparator without attr (src/index.js line 497):
a - b; on a MultiValue operand the subtraction is NaN. -/
def noComparator : JVal NumericKey Nat → JVal NumericKey Nat → CmpRes
  | .base a, .base b => .num ((a : Int) - b)
  | _, _ => .nan

/-- The attribute-less numeric configuration.  Its setKey (src/index.js
lines 482-491) evaluates key.value() first — but NumericKey.value is a
Long data field, not a method, so every call raises a TypeError. -/
def noOpts (uniq : Bool) (binSize : Nat) : Opts NumericKey Nat Nat where
  uniqueKeys := uniq
  binSize := binSize
  getKey := noGetKey
  mkNeedle := fun _ => .error "TypeError: key.value is not a function"
  setKeyMV := fun _ _ => .error "TypeError: key.value is not a function"
  comparator := noComparator
  matchK := NumericKey.matchJS
  pfxK := NumericKey.pfxJS
  keyLen := NumericKey.length
  charAtK := NumericKey.charAtJS
  emptyPfx := ⟨0, 0⟩
  isIndexE := numIsIndexE
  truthy := fun v => match v with | .base n => decide (n ≠ 0) | .mv _ _ => true

/-- A value stored under a numeric attr. -/
structure NVal where
  k : Nat
  deriving DecidableEq, Repr

/-- x[attr] for the numeric-attr configuration, as the stored number
(the stamped attribute of a MultiValue; unstamped reads NaN, giving key
0 after Long.fromNumber). -/
def naAttrOf : JVal NumericKey NVal → Nat
  | .base v => v.k
  | .mv ck _ => (ck.map (·.value)).getD 0

/-- KEY_TYPES.number.comparator with attr (src/index.js line 495):
a[attr] - b[attr]. -/
def naComparator (a b : JVal NumericKey NVal) : CmpRes :=
  .num ((naAttrOf a : Int) - naAttrOf b)

/-- The numeric configuration with a configured attr.  setKey stores
key.toNumber() in the attribute (src/index.js line 480); the cached key
of a MultiValue records that number. -/
def naOpts (uniq : Bool) (binSize : Nat) : Opts NumericKey NVal Nat where
  uniqueKeys := uniq
  binSize := binSize
  getKey := fun v => ⟨naAttrOf v, 16⟩
  mkNeedle := fun k => .ok (.base ⟨k.value⟩)
  setKeyMV := fun v k =>
    match v with
    | .mv _ vs => .ok (.mv (some ⟨k.value, 16⟩) vs)
    | .base _ => .ok (.base ⟨k.value⟩)
  comparator := naComparator
  matchK := NumericKey.matchJS
  pfxK := NumericKey.pfxJS
  keyLen := NumericKey.length
  charAtK := NumericKey.charAtJS
  emptyPfx := ⟨0, 0⟩
  isIndexE := numIsIndexE
  truthy := fun _ => true

/-- KEY_TYPES.number.createKey / createKey on a raw number lookup key
(src/index.js lines 468-469): new NumericKey(x). -/
def numCreateKey (x : Nat) : NumericKey := ⟨x, 16⟩

/-! ## Construction with an unknown type (Trie constructor, src/index.js
lines 510-529)

The constructor looks the type up in KEY_TYPES; when the lookup misses
(`if (typeOpts)`), it silently skips resolving the key-domain functions
and still builds the empty root, so the options object has no getKey.
The first operation then calls undefined as a function. -/

/-- Which built-in key domains exist. -/
def keyTypeKnown : String → Bool
  | "string" => true
  | "number" => true
  | _ => false

/-- A constructed trie as far as C9 needs it: whether the key-domain
functions were resolved.  The root is built unconditionally. -/
structure TrieBoot where
  typeResolved : Bool
  deriving DecidableEq, Repr

/-- The Trie constructor on the type option: it never throws — an
unknown type only leaves typeResolved false. -/
def mkTrieBoot (type : String) : Except String TrieBoot :=
  .ok ⟨keyTypeKnown type⟩

/-- Trie.add on a boot-stage trie: with no resolved key domain,
options.getKey is undefined and calling it raises a TypeError
(src/index.js line 533). -/
def bootAdd (t : TrieBoot) : Except String Unit :=
  if t.typeResolved then .ok () else .error "TypeError: options.getKey is not a function"

/-! # Claim C1 — round trip after add

The default configuration (new Trie(): string domain, no attr,
uniqueKeys) already falsifies the round trip: the attribute-less string
comparator returns a function instead of a number, so the equality
search over the terminal bin never reports a hit, and get(getKey(v))
misses right after add(v). -/

/-- The default configuration: new Trie() — string keys, no attr,
uniqueKeys true, binSize 256. -/
def dfltOpts : Opts String String String := soOpts true 256

/-- The root after add("a") on a fresh default trie. -/
def c1State : RNode String String String :=
  .mk "" false [] 0 [.base "a"] none false

/-- C1: in the default configuration, add("a") succeeds and stores the
value, yet get("a") immediately afterwards returns undefined — the
broken attribute-less string comparator (a function, never === 0) makes
the terminal equality search miss, so the round-trip property fails. -/
theorem c1_roundtrip_fails_in_default_config :
    trieAdd dfltOpts 10 (emptyRoot dfltOpts) (.base "a") = .ok c1State
    ∧ c1State.tvals = [.base "a"]
    ∧ trieGetK dfltOpts 10 c1State "a" none = .ok (none, c1State) :=
  ⟨rfl, rfl, rfl⟩

/-! # Claim C2 — the numeric scenario of spec §8

Numeric domain, uniqueKeys, no attr.  The three adds succeed, but both
gets raise: _search builds its needle via setKey({}, key), and the
attribute-less numeric setKey calls key.value(), a Long data field —
TypeError.  (The literal 0x1234_5678_9ABC_DEF0 is not representable as a
double; Long.fromNumber receives the rounded 0x1234_5678_9ABC_DF00, used
below.) -/

/-- The numeric scenario configuration: type "number", uniqueKeys,
no attr. -/
def c2Opts : Opts NumericKey Nat Nat := noOpts true 256

/-- The root after the three adds of the scenario. -/
def c2State : RNode NumericKey Nat Nat :=
  .mk ⟨0, 0⟩ false [] 0
    [.base 0x1234000000000000, .base 0x1234567800000000, .base 0x123456789ABCDF00]
    none false

/-- C2: the three adds of the numeric scenario succeed, but
get(0x1234_5678_0000_0000) — and the second get alike — raises a
TypeError instead of returning: the attribute-less numeric setKey
invokes key.value() while building the search needle. -/
theorem c2_numeric_scenario_get_raises :
    (do
      let r1 ← trieAdd c2Opts 10 (emptyRoot c2Opts) (.base 0x1234000000000000)
      let r2 ← trieAdd c2Opts 10 r1 (.base 0x1234567800000000)
      trieAdd c2Opts 10 r2 (.base 0x123456789ABCDF00)) = .ok c2State
    ∧ trieGetK c2Opts 10 c2State (numCreateKey 0x1234567800000000) none
        = .error "TypeError: key.value is not a function"
    ∧ trieGetK c2Opts 10 c2State (numCreateKey 0x1234000000000001) none
        = .error "TypeError: key.value is not a function" :=
  ⟨rfl, rfl, rfl⟩

/-! # Claim C3 — the string comparator returns a number

True with an attr; false without: the attribute-less branch returns the
inner three-way arrow function itself (src/index.js line 448). -/

/-- C3: the attribute-less string comparator applied to "a" and "b"
evaluates to a function value, never to a number — while the attr-mode
string comparator does return a three-way number for every pair. -/
theorem c3_comparator_function_not_number :
    soComparator (.base "a") (.base "b") = CmpRes.fn
    ∧ (∀ a b : JVal String String, soComparator a b = CmpRes.fn)
    ∧ (∀ n : Int, CmpRes.fn ≠ CmpRes.num n)
    ∧ (∀ a b : JVal String AVal, ∃ n : Int, saComparator a b = CmpRes.num n) :=
  ⟨rfl, fun _ _ => rfl, fun _ h => CmpRes.noConfusion h,
    fun a b => ⟨lexNum (saAttrOf a).data (saAttrOf b).data, rfl⟩⟩

/-! # Claim C4 — the compaction scenario of spec §8

A branching root with empty skip and one-value terminal children under
"a" and "b".  With an attr (so that delete can find the entry at all),
deleting the "b" entry does return the value — but the edge-count loop of
_compact is a `for..of` over the edges array, which never visits
character-keyed properties; it counts 0 edges, so the root is converted
to an empty terminal and the remaining "a" child is dropped entirely
instead of being spliced in.  Without an attr the delete cannot even
find the entry (broken comparator) and returns undefined with no
compaction. -/

/-- The string-attr configuration with binSize 1, which reaches the
claim's two-child root by two adds. -/
def c4Opts : Opts String AVal String := saOpts true 1

/-- The "a" entry of the scenario. -/
def c4ValA : JVal String AVal := .base ⟨"a", 1⟩

/-- The "b" entry of the scenario. -/
def c4ValB : JVal String AVal := .base ⟨"b", 2⟩

/-- The scenario's starting state: branching root, empty skip, edges "a"
and "b" to one-value terminal children. -/
def c4State : RNode String AVal String :=
  .mk "" true
    [(some "a", .mk "a" false [] 0 [c4ValA] none false),
     (some "b", .mk "b" false [] 0 [c4ValB] none false)]
    0 [] none false

/-- The root the delete actually leaves: an empty terminal — both
entries gone. -/
def c4Post : RNode String AVal String :=
  .mk "" false [] 0 [] none false

/-- C4: on the described two-child root (reached here by two adds with
binSize 1), delete("b") returns the "b" value but collapses the root to
an empty terminal instead of inheriting the remaining "a" child — the
for..of edge count sees 0 character-keyed edges — so the "a" value is
lost: get("a") afterwards is absent.  In the attr-less string domain the
same delete simply misses (comparator bug) and removes nothing. -/
theorem c4_compaction_drops_remaining_child :
    (do
      let r1 ← trieAdd c4Opts 10 (emptyRoot c4Opts) c4ValA
      trieAdd c4Opts 10 r1 c4ValB) = .ok c4State
    ∧ trieDeleteK c4Opts 10 c4State "b" none = .ok (some (.one c4ValB), c4Post)
    ∧ trieGetK c4Opts 10 c4Post "a" none = .ok (none, c4Post)
    ∧ trieDeleteK (soOpts true 1) 10
        (.mk "" true
          [(some "a", .mk "a" false [] 0 [.base "a"] none false),
           (some "b", .mk "b" false [] 0 [.base "b"] none false)]
          0 [] none false) "b" none
      = .ok (none,
          .mk "" true
            [(some "a", .mk "a" false [] 0 [.base "a"] none false),
             (some "b", .mk "b" false [] 0 [.base "b"] none false)]
            0 [] none false) :=
  ⟨rfl, rfl, rfl, rfl⟩

/-! # Claim C5 — the terminal _delete contract

The source splits the found entry into keep and removed and splices the
slot out when keep is absent; but it never overwrites the slot: a
MultiValue filtered down to one survivor stays in the bin as a (mutated)
MultiValue, not as the bare keep value. -/

/-- String-attr duplicate-key configuration. -/
def c5Opts : Opts String AVal String := saOpts false 256

/-- First duplicate ({k:"a", payload 1}). -/
def c5Val1 : JVal String AVal := .base ⟨"a", 1⟩

/-- Second duplicate ({k:"a", payload 2}). -/
def c5Val2 : JVal String AVal := .base ⟨"a", 2⟩

/-- The bin after both adds: out of order flag set, not yet merged. -/
def c5State : RNode String AVal String :=
  .mk "" false [] 0 [c5Val1, c5Val2] none true

/-- The delete filter: remove the payload-2 value. -/
def c5Filter : Option (JVal String AVal) → Bool
  | some (.base v) => v.payload = 2
  | _ => false

/-- The bin slot delete leaves behind: the original MultiValue, mutated
to hold only the survivor. -/
def c5Post : RNode String AVal String :=
  .mk "" false [] 0 [.mv (some "a") [c5Val1]] none false

/-- C5 counterexample: deleting the payload-2 duplicate at key "a" does
return the removed value, and its keep part is the bare surviving value —
but the bin slot is not overwritten with that keep part: it still holds
the MultiValue wrapper (now with a single member).  The claim's
"otherwise the bin slot is overwritten with the keep part" is false. -/
theorem c5_slot_not_overwritten :
    (do
      let r1 ← trieAdd c5Opts 10 (emptyRoot c5Opts) c5Val1
      trieAdd c5Opts 10 r1 c5Val2) = .ok c5State
    ∧ trieDeleteK c5Opts 10 c5State "a" (some c5Filter)
        = .ok (some (.one c5Val2), c5Post)
    ∧ (deleteSplit (some c5Filter) (some (.mv (some "a") [c5Val1, c5Val2]))).1
        = some c5Val1
    ∧ c5Post.tvals ≠ [c5Val1] :=
  ⟨rfl, rfl, rfl, by
    intro h
    injection h with h1 _
    exact JVal.noConfusion h1⟩

/-- C5 amended: when a delete finds a matching entry in a terminal
node's bin, _delete splits it into a keep part and a removed part; if
the keep part is absent the slot is spliced out, and otherwise the slot
retains the original (mutated) entry — for a MultiValue the survivors
stay inside the wrapper even when only one survives, and a kept simple
value is left in place; the removed part is returned either way. -/
theorem c5_amended_terminal_delete (o : Opts K B U) [DecidableEq U] (fuel : Nat)
    (skip : K) (es : List (Option U × RNode K B U)) (elen : Nat)
    (tvals : List (JVal K B)) (ival : Option (JVal K B)) (dirty : Bool)
    (key : K) (filter : Option (Option (JVal K B) → Bool))
    (vals1 : List (JVal K B)) (d1 : Bool) (needle : JVal K B) (idx : Nat)
    (entry : JVal K B)
    (hpfx : o.matchK key skip = o.keyLen skip)
    (hsort : sortValues o tvals dirty = .ok (vals1, d1))
    (hneedle : o.mkNeedle key = .ok needle)
    (hfound : eqSearch o.comparator vals1 needle = some idx)
    (hentry : vals1[idx]? = some entry) :
    deleteF o (fuel + 1) (.mk skip false es elen tvals ival dirty) key filter
      = .ok ((deleteSplit filter (some entry)).2.1,
          .mk skip false es elen
            (match (deleteSplit filter (some entry)).1,
                   (deleteSplit filter (some entry)).2.2 with
             | none, _ => vals1.eraseIdx idx
             | some _, some v1 => vals1.set idx v1
             | some _, none => vals1) ival d1)
    ∧ (∀ ck vs, entry = .mv ck vs →
        (deleteSplit filter (some entry)).2.2
          = some (.mv ck (vs.filter (fun x => ¬ filterPass filter (some x))))
        ∧ (deleteSplit filter (some entry)).2.1
          = coerceRes (vs.filter (fun x => filterPass filter (some x)))) := by
  constructor
  · simp only [deleteF]
    rw [if_neg (by rw [hpfx]; exact fun hcon => hcon rfl)]
    rw [if_pos trivial]
    simp only [hsort, hneedle, hfound, hentry]
  · intro ck vs he
    subst he
    unfold deleteSplit
    constructor
    · rfl
    · rfl

/-- Witness for the amended C5 theorem, at the duplicate-key scenario:
the found entry is the MultiValue for key "a"; the keep part is present,
so the slot keeps the mutated MultiValue and the removed value comes
back. -/
theorem c5_amended_terminal_delete_witness :
    deleteF c5Opts 10 (.mk "" false [] 0 [c5Val1, c5Val2] none true) "a"
        (some c5Filter)
      = .ok (some (.one c5Val2),
          .mk "" false [] 0 [.mv (some "a") [c5Val1]] none false) := by
  have h := (c5_amended_terminal_delete c5Opts 9 "" [] 0 [c5Val1, c5Val2] none true
    "a" (some c5Filter) [.mv (some "a") [c5Val1, c5Val2]] false (.base ⟨"a", 0⟩) 0
    (.mv (some "a") [c5Val1, c5Val2]) rfl rfl rfl rfl rfl).1
  exact h.trans (by rfl)

/-! # Claim C7 — the numeric match computes the capped nibble LCP -/

/-- The nibble of a 64-bit key value at position i, most significant
first (the claim's unit addressing). -/
def nibbleAt (v i : Nat) : Nat := v / 2 ^ (60 - 4 * i) % 16

/-- The 16-nibble unit sequence of a 64-bit key value. -/
def nibSeq (v : Nat) : List Nat := (List.range 16).map (nibbleAt v)

/-- The nibble of a 32-bit word at position i, most significant first. -/
def nib32 (v i : Nat) : Nat := v / 2 ^ (28 - 4 * i) % 16

/-- The 8-nibble unit sequence of a 32-bit word. -/
def nib8Seq (v : Nat) : List Nat := (List.range 8).map (nib32 v)

theorem lcpUnits_self [DecidableEq α] (l : List α) : lcpUnits l l = l.length := by
  induction l with
  | nil => rfl
  | cons x xs ih => simp [lcpUnits, ih]

theorem lcpUnits_append [DecidableEq α] (xs ys xs2 ys2 : List α)
    (h : xs.length = ys.length) :
    lcpUnits (xs ++ xs2) (ys ++ ys2)
      = if xs = ys then xs.length + lcpUnits xs2 ys2 else lcpUnits xs ys := by
  induction xs generalizing ys with
  | nil =>
    cases ys with
    | nil => simp [lcpUnits]
    | cons y ys => exact absurd h (by simp)
  | cons x xs ih =>
    cases ys with
    | nil => exact absurd h (by simp)
    | cons y ys =>
      by_cases hxy : x = y
      · subst hxy
        have lhs : lcpUnits ((x :: xs) ++ xs2) ((x :: ys) ++ ys2)
            = lcpUnits (xs ++ xs2) (ys ++ ys2) + 1 := by
          rw [List.cons_append, List.cons_append, lcpUnits, if_pos rfl]
        rw [lhs, ih ys (by simpa using h)]
        by_cases hl : xs = ys
        · rw [if_pos hl, if_pos (by rw [hl]), List.length_cons]
          omega
        · rw [if_neg hl, if_neg (by intro hcon; injection hcon with _ h2; exact hl h2)]
          have h2 : lcpUnits (x :: xs) (x :: ys) = lcpUnits xs ys + 1 := by
            rw [lcpUnits, if_pos rfl]
          omega
      · have lhs : lcpUnits ((x :: xs) ++ xs2) ((y :: ys) ++ ys2) = 0 := by
          rw [List.cons_append, List.cons_append, lcpUnits, if_neg hxy]
        rw [lhs, if_neg (by intro hcon; injection hcon with h1 _; exact hxy h1)]
        have h2 : lcpUnits (x :: xs) (y :: ys) = 0 := by
          rw [lcpUnits, if_neg hxy]
        omega

set_option maxHeartbeats 1600000 in
/-- cmp computes the length of the longest common nibble prefix of two
32-bit words. -/
theorem cmpJS_eq_lcp (a b : Nat) (ha : a < 2 ^ 32) (hb : b < 2 ^ 32) :
    cmpJS a b = lcpUnits (nib8Seq a) (nib8Seq b) := by
  have h8 : ∀ v : Nat, nib8Seq v =
      [v / 2 ^ 28 % 16, v / 2 ^ 24 % 16, v / 2 ^ 20 % 16, v / 2 ^ 16 % 16,
       v / 2 ^ 12 % 16, v / 2 ^ 8 % 16, v / 2 ^ 4 % 16, v / 2 ^ 0 % 16] := fun v => rfl
  rw [h8 a, h8 b]
  by_cases e0 : a / 2 ^ 28 % 16 = b / 2 ^ 28 % 16
  case neg =>
    have hab : ¬ a = b := by omega
    have hc1 : ¬ a / 2 ^ 16 = b / 2 ^ 16 := by omega
    have hc2 : ¬ a / 2 ^ 16 / 2 ^ 8 % 2 ^ 8 = b / 2 ^ 16 / 2 ^ 8 % 2 ^ 8 := by omega
    have hc3 : ¬ a / 2 ^ 16 / 2 ^ 8 / 2 ^ 4 % 2 ^ 4 = b / 2 ^ 16 / 2 ^ 8 / 2 ^ 4 % 2 ^ 4 := by
      omega
    have hcmp : cmpJS a b = 0 := by
      simp only [cmpJS]
      rw [if_neg hab, if_neg hc1, if_neg hc1, if_neg hc1, if_neg hc2, if_neg hc2,
        if_neg hc2, if_neg hc3]
    rw [hcmp]
    simp only [lcpUnits]
    rw [if_neg e0]
  case pos =>
  by_cases e1 : a / 2 ^ 24 % 16 = b / 2 ^ 24 % 16
  case neg =>
    have hab : ¬ a = b := by omega
    have hc1 : ¬ a / 2 ^ 16 = b / 2 ^ 16 := by omega
    have hc2 : ¬ a / 2 ^ 16 / 2 ^ 8 % 2 ^ 8 = b / 2 ^ 16 / 2 ^ 8 % 2 ^ 8 := by omega
    have hc3 : a / 2 ^ 16 / 2 ^ 8 / 2 ^ 4 % 2 ^ 4 = b / 2 ^ 16 / 2 ^ 8 / 2 ^ 4 % 2 ^ 4 := by
      omega
    have hcmp : cmpJS a b = 1 := by
      simp only [cmpJS]
      rw [if_neg hab, if_neg hc1, if_neg hc1, if_neg hc1, if_neg hc2, if_neg hc2,
        if_neg hc2, if_pos hc3]
    rw [hcmp]
    simp only [lcpUnits]
    rw [if_pos e0, if_neg e1]
  case pos =>
  by_cases e2 : a / 2 ^ 20 % 16 = b / 2 ^ 20 % 16
  case neg =>
    have hab : ¬ a = b := by omega
    have hc1 : ¬ a / 2 ^ 16 = b / 2 ^ 16 := by omega
    have hc2 : a / 2 ^ 16 / 2 ^ 8 % 2 ^ 8 = b / 2 ^ 16 / 2 ^ 8 % 2 ^ 8 := by omega
    have hc3 : ¬ a / 2 ^ 16 / 2 ^ 4 % 2 ^ 4 = b / 2 ^ 16 / 2 ^ 4 % 2 ^ 4 := by omega
    have hcmp : cmpJS a b = 2 := by
      simp only [cmpJS]
      rw [if_neg hab, if_neg hc1, if_neg hc1, if_neg hc1, if_pos hc2, if_pos hc2,
        if_pos hc2, if_neg hc3]
    rw [hcmp]
    simp only [lcpUnits]
    rw [if_pos e0, if_pos e1, if_neg e2]
  case pos =>
  by_cases e3 : a / 2 ^ 16 % 16 = b / 2 ^ 16 % 16
  case neg =>
    have hab : ¬ a = b := by omega
    have hc1 : ¬ a / 2 ^ 16 = b / 2 ^ 16 := by omega
    have hc2 : a / 2 ^ 16 / 2 ^ 8 % 2 ^ 8 = b / 2 ^ 16 / 2 ^ 8 % 2 ^ 8 := by omega
    have hc3 : a / 2 ^ 16 / 2 ^ 4 % 2 ^ 4 = b / 2 ^ 16 / 2 ^ 4 % 2 ^ 4 := by omega
    have hcmp : cmpJS a b = 3 := by
      simp only [cmpJS]
      rw [if_neg hab, if_neg hc1, if_neg hc1, if_neg hc1, if_pos hc2, if_pos hc2,
        if_pos hc2, if_pos hc3]
    rw [hcmp]
    simp only [lcpUnits]
    rw [if_pos e0, if_pos e1, if_pos e2, if_neg e3]
  case pos =>
  by_cases e4 : a / 2 ^ 12 % 16 = b / 2 ^ 12 % 16
  case neg =>
    have hab : ¬ a = b := by omega
    have hc1 : a / 2 ^ 16 = b / 2 ^ 16 := by omega
    have hc2 : ¬ a / 2 ^ 8 % 2 ^ 8 = b / 2 ^ 8 % 2 ^ 8 := by omega
    have hc3 : ¬ a / 2 ^ 8 / 2 ^ 4 % 2 ^ 4 = b / 2 ^ 8 / 2 ^ 4 % 2 ^ 4 := by omega
    have hcmp : cmpJS a b = 4 := by
      simp only [cmpJS]
      rw [if_neg hab, if_pos hc1, if_pos hc1, if_pos hc1, if_neg hc2, if_neg hc2,
        if_neg hc2, if_neg hc3]
    rw [hcmp]
    simp only [lcpUnits]
    rw [if_pos e0, if_pos e1, if_pos e2, if_pos e3, if_neg e4]
  case pos =>
  by_cases e5 : a / 2 ^ 8 % 16 = b / 2 ^ 8 % 16
  case neg =>
    have hab : ¬ a = b := by omega
    have hc1 : a / 2 ^ 16 = b / 2 ^ 16 := by omega
    have hc2 : ¬ a / 2 ^ 8 % 2 ^ 8 = b / 2 ^ 8 % 2 ^ 8 := by omega
    have hc3 : a / 2 ^ 8 / 2 ^ 4 % 2 ^ 4 = b / 2 ^ 8 / 2 ^ 4 % 2 ^ 4 := by omega
    have hcmp : cmpJS a b = 5 := by
      simp only [cmpJS]
      rw [if_neg hab, if_pos hc1, if_pos hc1, if_pos hc1, if_neg hc2, if_neg hc2,
        if_neg hc2, if_pos hc3]
    rw [hcmp]
    simp only [lcpUnits]
    rw [if_pos e0, if_pos e1, if_pos e2, if_pos e3, if_pos e4, if_neg e5]
  case pos =>
  by_cases e6 : a / 2 ^ 4 % 16 = b / 2 ^ 4 % 16
  case neg =>
    have hab : ¬ a = b := by omega
    have hc1 : a / 2 ^ 16 = b / 2 ^ 16 := by omega
    have hc2 : a / 2 ^ 8 % 2 ^ 8 = b / 2 ^ 8 % 2 ^ 8 := by omega
    have hc3 : ¬ a / 2 ^ 4 % 2 ^ 4 = b / 2 ^ 4 % 2 ^ 4 := by omega
    have hcmp : cmpJS a b = 6 := by
      simp only [cmpJS]
      rw [if_neg hab, if_pos hc1, if_pos hc1, if_pos hc1, if_pos hc2, if_pos hc2,
        if_pos hc2, if_neg hc3]
    rw [hcmp]
    simp only [lcpUnits]
    rw [if_pos e0, if_pos e1, if_pos e2, if_pos e3, if_pos e4, if_pos e5, if_neg e6]
  case pos =>
  by_cases e7 : a / 2 ^ 0 % 16 = b / 2 ^ 0 % 16
  case neg =>
    have hab : ¬ a = b := by omega
    have hc1 : a / 2 ^ 16 = b / 2 ^ 16 := by omega
    have hc2 : a / 2 ^ 8 % 2 ^ 8 = b / 2 ^ 8 % 2 ^ 8 := by omega
    have hc3 : a / 2 ^ 4 % 2 ^ 4 = b / 2 ^ 4 % 2 ^ 4 := by omega
    have hcmp : cmpJS a b = 7 := by
      simp only [cmpJS]
      rw [if_neg hab, if_pos hc1, if_pos hc1, if_pos hc1, if_pos hc2, if_pos hc2,
        if_pos hc2, if_pos hc3]
    rw [hcmp]
    simp only [lcpUnits]
    rw [if_pos e0, if_pos e1, if_pos e2, if_pos e3, if_pos e4, if_pos e5, if_pos e6,
      if_neg e7]
  case pos =>
    have hab : a = b := by omega
    have hcmp : cmpJS a b = 8 := by
      simp only [cmpJS]
      rw [if_pos hab]
    rw [hcmp]
    simp only [lcpUnits]
    rw [if_pos e0, if_pos e1, if_pos e2, if_pos e3, if_pos e4, if_pos e5, if_pos e6,
      if_pos e7]

theorem nibSeq_eq_append (v : Nat) :
    nibSeq v = nib8Seq (v / 2 ^ 32) ++ nib8Seq (v % 2 ^ 32) := by
  have h16 : nibSeq v =
      [v / 2 ^ 60 % 16, v / 2 ^ 56 % 16, v / 2 ^ 52 % 16, v / 2 ^ 48 % 16,
       v / 2 ^ 44 % 16, v / 2 ^ 40 % 16, v / 2 ^ 36 % 16, v / 2 ^ 32 % 16,
       v / 2 ^ 28 % 16, v / 2 ^ 24 % 16, v / 2 ^ 20 % 16, v / 2 ^ 16 % 16,
       v / 2 ^ 12 % 16, v / 2 ^ 8 % 16, v / 2 ^ 4 % 16, v / 2 ^ 0 % 16] := rfl
  have h8 : ∀ w : Nat, nib8Seq w =
      [w / 2 ^ 28 % 16, w / 2 ^ 24 % 16, w / 2 ^ 20 % 16, w / 2 ^ 16 % 16,
       w / 2 ^ 12 % 16, w / 2 ^ 8 % 16, w / 2 ^ 4 % 16, w / 2 ^ 0 % 16] := fun w => rfl
  rw [h16, h8 (v / 2 ^ 32), h8 (v % 2 ^ 32)]
  simp only [List.cons_append, List.nil_append, List.cons.injEq, and_true]
  omega

theorem nib8Seq_inj (x y : Nat) (hx : x < 2 ^ 32) (hy : y < 2 ^ 32)
    (h : nib8Seq x = nib8Seq y) : x = y := by
  have h8 : ∀ w : Nat, nib8Seq w =
      [w / 2 ^ 28 % 16, w / 2 ^ 24 % 16, w / 2 ^ 20 % 16, w / 2 ^ 16 % 16,
       w / 2 ^ 12 % 16, w / 2 ^ 8 % 16, w / 2 ^ 4 % 16, w / 2 ^ 0 % 16] := fun w => rfl
  rw [h8 x, h8 y] at h
  simp only [List.cons.injEq, and_true] at h
  omega

theorem lcp_nibSeq_split (av bv : Nat) (hav : av < 2 ^ 64) (hbv : bv < 2 ^ 64) :
    lcpUnits (nibSeq av) (nibSeq bv)
      = if av / 2 ^ 32 = bv / 2 ^ 32
        then 8 + lcpUnits (nib8Seq (av % 2 ^ 32)) (nib8Seq (bv % 2 ^ 32))
        else lcpUnits (nib8Seq (av / 2 ^ 32)) (nib8Seq (bv / 2 ^ 32)) := by
  rw [nibSeq_eq_append av, nibSeq_eq_append bv]
  rw [lcpUnits_append _ _ _ _ (by rfl)]
  by_cases hh : av / 2 ^ 32 = bv / 2 ^ 32
  · rw [if_pos (by rw [hh]), if_pos hh]
    rfl
  · rw [if_neg ?_, if_neg hh]
    intro hcon
    exact hh (nib8Seq_inj _ _ (by omega) (by omega) hcon)

/-- C7: for every pair of numeric keys, match returns the length of the
longest common prefix of their nibble sequences (most significant
first), capped at the smaller of the two unit lengths; in particular two
equal full keys match at 16. -/
theorem c7_numeric_match_nibble_lcp :
    (∀ a b : NumericKey, a.value < 2 ^ 64 → b.value < 2 ^ 64 →
        a.length ≤ 16 → b.length ≤ 16 →
        NumericKey.matchJS a b
          = Nat.min (Nat.min a.length b.length)
              (lcpUnits (nibSeq a.value) (nibSeq b.value)))
    ∧ (∀ v : Nat, NumericKey.matchJS ⟨v, 16⟩ ⟨v, 16⟩ = 16) := by
  constructor
  · rintro ⟨av, al⟩ ⟨bv, bl⟩ hav hbv hal hbl
    replace hav : av < 2 ^ 64 := hav
    replace hbv : bv < 2 ^ 64 := hbv
    replace hal : al ≤ 16 := hal
    replace hbl : bl ≤ 16 := hbl
    simp only [NumericKey.matchJS, NumericKey.high, NumericKey.low]
    rw [lcp_nibSeq_split av bv hav hbv]
    by_cases hmain : al = bl ∧ av / 2 ^ 32 = bv / 2 ^ 32 ∧ av % 2 ^ 32 = bv % 2 ^ 32
    · rw [if_pos hmain]
      obtain ⟨h1, h2, h3⟩ := hmain
      have hv : av = bv := by omega
      subst hv
      subst h1
      rw [if_pos rfl, lcpUnits_self]
      have hlen : (nib8Seq (av % 2 ^ 32)).length = 8 := rfl
      rw [hlen]
      unfold Nat.min
      simp only [Nat.min_def]
      split_ifs <;> omega
    · rw [if_neg hmain]
      by_cases hn : 0 < Nat.min al bl
      · rw [if_pos hn]
        by_cases hh : av / 2 ^ 32 = bv / 2 ^ 32
        · rw [if_pos hh, if_pos hh]
          rw [cmpJS_eq_lcp (av % 2 ^ 32) (bv % 2 ^ 32) (by omega) (by omega)]
          rw [Nat.add_comm 8 (lcpUnits (nib8Seq (av % 2 ^ 32)) (nib8Seq (bv % 2 ^ 32)))]
        · rw [if_neg hh, if_neg hh]
          rw [cmpJS_eq_lcp (av / 2 ^ 32) (bv / 2 ^ 32) (by omega) (by omega)]
      · rw [if_neg hn]
        have h0 : Nat.min al bl = 0 := Nat.eq_zero_of_le_zero (Nat.not_lt.mp hn)
        rw [h0]
        unfold Nat.min
        simp only [Nat.min_def]
        split_ifs <;> omega
  · intro v
    simp [NumericKey.matchJS, NumericKey.high, NumericKey.low]

/-- Witness for C7: the keys 0x1234_5678_0000_0000 and
0x1234_0000_0000_0000 (both full length) match at 4 nibbles, the length
of their common prefix 0x1234. -/
theorem c7_numeric_match_nibble_lcp_witness :
    (NumericKey.mk 0x1234567800000000 16).value < 2 ^ 64
    ∧ (NumericKey.mk 0x1234000000000000 16).value < 2 ^ 64
    ∧ NumericKey.matchJS (NumericKey.mk 0x1234567800000000 16)
        (NumericKey.mk 0x1234000000000000 16)
      = Nat.min
          (Nat.min (NumericKey.mk 0x1234567800000000 16).length
            (NumericKey.mk 0x1234000000000000 16).length)
          (lcpUnits (nibSeq (NumericKey.mk 0x1234567800000000 16).value)
            (nibSeq (NumericKey.mk 0x1234000000000000 16).value))
    ∧ NumericKey.matchJS (NumericKey.mk 0x1234567800000000 16)
        (NumericKey.mk 0x1234000000000000 16) = 4 := by
  refine ⟨by decide, by decide, ?_, by decide⟩
  exact c7_numeric_match_nibble_lcp.1 ⟨0x1234567800000000, 16⟩ ⟨0x1234000000000000, 16⟩
    (by decide) (by decide) (by decide) (by decide)

/-! # Claim C9 — unknown type at construction

The constructor only guards the KEY_TYPES lookup with `if (typeOpts)`:
an unknown type silently leaves the key-domain functions unresolved and
construction completes; the TypeError surfaces on the first operation
that calls one of them. -/

/-- C9 counterexample: constructing with the unknown type "bogus" does
not raise — the constructor returns a trie whose key domain is simply
unresolved. -/
theorem c9_unknown_type_constructs :
    mkTrieBoot "bogus" = .ok ⟨false⟩ := rfl

/-- C9 amended: an unknown type is accepted at construction (no error);
the failure is deferred to the first operation, which raises a TypeError
for the missing key-domain function (and is thus not a miss result).
The two built-in types resolve. -/
theorem c9_error_deferred_to_first_operation :
    mkTrieBoot "bogus" = .ok ⟨false⟩
    ∧ bootAdd ⟨false⟩ = .error "TypeError: options.getKey is not a function"
    ∧ mkTrieBoot "string" = .ok ⟨true⟩
    ∧ mkTrieBoot "number" = .ok ⟨true⟩ :=
  ⟨rfl, rfl, rfl, rfl⟩

/-! # Claim C6 — the empty-reset property

The facade resets skip only when the root ends as a terminal with an
empty bin.  In the numeric domain the root need not end terminal: the
compaction edge count is the array length, which `delete` never shrinks,
so a branching root whose last child empties keeps its edges array and
is never collapsed — and the reset is skipped. -/

/-- The numeric-attr configuration with binSize 1 (two adds explode the
root into a two-edge branching node). -/
def c6Opts : Opts NumericKey NVal Nat := naOpts true 1

/-- The first value, key 0x1000_0000_0000_0000 (first nibble 1). -/
def c6ValA : JVal NumericKey NVal := .base ⟨0x1000000000000000⟩

/-- The second value, key 0x2000_0000_0000_0000 (first nibble 2). -/
def c6ValB : JVal NumericKey NVal := .base ⟨0x2000000000000000⟩

/-- The two-value state: branching root (skip of unit length 0), edges
at nibbles 1 and 2, array length 3. -/
def c6StateAB : RNode NumericKey NVal Nat :=
  .mk ⟨0x1000000000000000, 0⟩ true
    [(some 1, .mk ⟨0x1000000000000000, 16⟩ false [] 0 [c6ValA] none false),
     (some 2, .mk ⟨0x2000000000000000, 16⟩ false [] 0 [c6ValB] none false)]
    3 [] none false

/-- After deleting the B entry: one real edge left, array length still 3,
so compaction leaves the node branching. -/
def c6StateA : RNode NumericKey NVal Nat :=
  .mk ⟨0x1000000000000000, 0⟩ true
    [(some 1, .mk ⟨0x1000000000000000, 16⟩ false [] 0 [c6ValA] none false)]
    3 [] none false

/-- After deleting the last entry: no values remain anywhere, yet the
root is still a branching node (edge count 3 = the stale array length),
its skip not reset. -/
def c6Final : RNode NumericKey NVal Nat :=
  .mk ⟨0x1000000000000000, 0⟩ true [] 3 [] none false

/-- C6 counterexample: in a numeric-attr trie with binSize 1, after
add(A), add(B), delete(B), the delete of A removes the last value of the
trie and returns it — but the root it leaves is still a branching node
(not a terminal with an empty bin), and its skip is not the empty
prefix: the claimed empty-reset does not happen. -/
theorem c6_empty_reset_fails_numeric :
    (do
      let r1 ← trieAdd c6Opts 10 (emptyRoot c6Opts) c6ValA
      trieAdd c6Opts 10 r1 c6ValB) = .ok c6StateAB
    ∧ trieDeleteK c6Opts 10 c6StateAB (numCreateKey 0x2000000000000000) none
        = .ok (some (.one c6ValB), c6StateA)
    ∧ trieDeleteK c6Opts 10 c6StateA (numCreateKey 0x1000000000000000) none
        = .ok (some (.one c6ValA), c6Final)
    ∧ c6Final.isBranch = true
    ∧ c6Final.edges = [] ∧ c6Final.tvals = [] ∧ c6Final.ival = none
    ∧ c6Final.skip ≠ c6Opts.emptyPfx :=
  ⟨rfl, rfl, rfl, rfl, rfl, rfl, rfl, by decide⟩

/-- A tree is clean when every empty terminal node in it has a cleared
dirty flag (true of every reachable state; delete preserves it). -/
def cleanTree : RNode K B U → Bool
  | .mk _ isBr es _ tvals _ dirty =>
    (isBr || !tvals.isEmpty || !dirty) &&
      es.attach.all (fun p => cleanTree p.1.2)
decreasing_by
  obtain ⟨⟨u, c⟩, hmem⟩ := p
  have h1 := List.sizeOf_lt_of_mem hmem
  simp only [Prod.mk.sizeOf_spec] at h1
  simp only [RNode.mk.sizeOf_spec]
  omega

theorem list_all_pmap {P : α → Prop} (f : α → Bool) (l : List α) :
    ∀ (H : ∀ a ∈ l, P a), ((l.pmap Subtype.mk H).all fun p => f p.1) = l.all f := by
  induction l with
  | nil => intro H; rfl
  | cons hd tl ih =>
    intro H
    simp only [List.pmap, List.all_cons, ih]

theorem list_all_attach (l : List α) (f : α → Bool) :
    (l.attach.all fun p => f p.1) = l.all f := by
  simp only [List.attach, List.attachWith]
  exact list_all_pmap f l _

theorem cleanTree_mk (s : K) (b : Bool) (es : List (Option U × RNode K B U)) (el : Nat)
    (tv : List (JVal K B)) (iv : Option (JVal K B)) (d : Bool) :
    cleanTree (.mk s b es el tv iv d)
      = ((b || !tv.isEmpty || !d) && es.all (fun p => cleanTree p.2)) := by
  rw [cleanTree]
  exact congrArg _ (list_all_attach es fun p => cleanTree p.2)

theorem mem_edSetEntries [DecidableEq U] {es : List (Option U × RNode K B U)}
    {x : Option U} {n : RNode K B U} {p : Option U × RNode K B U}
    (h : p ∈ edSetEntries es x n) : p = (x, n) ∨ p ∈ es := by
  induction es with
  | nil =>
    unfold edSetEntries at h
    simp only [List.mem_singleton] at h
    exact Or.inl h
  | cons hd tl ih =>
    obtain ⟨k, v⟩ := hd
    unfold edSetEntries at h
    split at h
    · rcases List.mem_cons.1 h with h1 | h1
      · exact Or.inl h1
      · exact Or.inr (List.mem_cons_of_mem _ h1)
    · rcases List.mem_cons.1 h with h1 | h1
      · exact Or.inr (List.mem_cons.2 (Or.inl h1))
      · rcases ih h1 with h2 | h2
        · exact Or.inl h2
        · exact Or.inr (List.mem_cons_of_mem _ h2)

theorem mem_edDelEntries [DecidableEq U] {es : List (Option U × RNode K B U)}
    {x : Option U} {p : Option U × RNode K B U}
    (h : p ∈ edDelEntries es x) : p ∈ es :=
  List.mem_of_mem_filter h

theorem edLookup_mem [DecidableEq U] {es : List (Option U × RNode K B U)}
    {x : Option U} {c : RNode K B U} (h : edLookup es x = some c) :
    ∃ k, (k, c) ∈ es := by
  unfold edLookup at h
  cases hf : es.find? (fun p => p.1 = x) with
  | none => simp [hf] at h
  | some q =>
    refine ⟨q.1, ?_⟩
    have hm := List.mem_of_find?_eq_some hf
    have hq : q.2 = c := by
      rw [hf] at h
      simpa using h
    rw [← hq]
    exact hm

theorem edSlot_mem [DecidableEq U] {o : Opts K B U}
    {es : List (Option U × RNode K B U)} {i : Nat} {c : RNode K B U}
    (h : edSlot o es i = some c) : ∃ k, (k, c) ∈ es := by
  unfold edSlot at h
  cases hf : es.find? (fun p => o.isIndexE p.1 = some i) with
  | none => simp [hf] at h
  | some q =>
    refine ⟨q.1, ?_⟩
    have hm := List.mem_of_find?_eq_some hf
    have hq : q.2 = c := by
      rw [hf] at h
      simpa using h
    rw [← hq]
    exact hm

theorem sortValues_flag_false (o : Opts K B U) (tv : List (JVal K B)) (d : Bool)
    (v1 : List (JVal K B)) (d1 : Bool) (h : sortValues o tv d = .ok (v1, d1)) :
    d1 = false := by
  unfold sortValues at h
  split at h
  · split at h
    · simp only [Except.ok.injEq, Prod.mk.injEq] at h
      exact h.2.symm
    · simp only [Except.ok.injEq, Prod.mk.injEq] at h
      exact h.2.symm
    · split at h
      · simp only [Except.ok.injEq, Prod.mk.injEq] at h
        exact h.2.symm
      · exact Except.noConfusion h
  · rename_i hd
    simp only [Bool.not_eq_true] at hd
    simp only [Except.ok.injEq, Prod.mk.injEq] at h
    rw [← h.2, hd]

theorem compactF_clean [DecidableEq U] (o : Opts K B U) (fuel : Nat)
    (node : RNode K B U) (path : Option U) (child : RNode K B U)
    (n2 : RNode K B U) (hc : cleanTree node = true)
    (h : compactF o fuel node path child = .ok n2) : cleanTree n2 = true := by
  cases fuel with
  | zero => exact Except.noConfusion h
  | succ fuel =>
    cases node with
    | mk skip isBr es elen tvals ival dirty =>
      rw [cleanTree_mk] at hc
      rw [Bool.and_eq_true] at hc
      have hkids := List.all_eq_true.1 hc.2
      simp only [compactF] at h
      split at h
      · split at h
        · -- collapse to a terminal: dirty is cleared, no children remain
          rw [← Except.ok.inj h, cleanTree_mk]
          simp
        · split at h
          · -- splice the surviving slot's child in place
            split at h
            · exact Except.noConfusion h
            · rename_i c hslot
              rw [← Except.ok.inj h]
              obtain ⟨k, hk⟩ := edSlot_mem hslot
              exact hkids (k, c) (mem_edDelEntries hk)
          · -- several slots remain: only the edge entry list shrinks
            rw [← Except.ok.inj h, cleanTree_mk]
            rw [Bool.and_eq_true]
            refine ⟨hc.1, List.all_eq_true.2 ?_⟩
            intro p hp
            exact hkids p (mem_edDelEntries hp)
      · rw [← Except.ok.inj h, cleanTree_mk]
        rw [Bool.and_eq_true]
        exact hc

theorem deleteF_clean [DecidableEq U] (o : Opts K B U) :
    ∀ (fuel : Nat) (node : RNode K B U) (key : K)
      (filter : Option (Option (JVal K B) → Bool)) (r : Option (Res K B))
      (n1 : RNode K B U), cleanTree node = true →
      deleteF o fuel node key filter = .ok (r, n1) → cleanTree n1 = true := by
  intro fuel
  induction fuel with
  | zero => intro node key filter r n1 _ h; exact Except.noConfusion h
  | succ fuel ih =>
    intro node key filter r n1 hc h
    cases node with
    | mk skip isBr es elen tvals ival dirty =>
      have hc0 := hc
      rw [cleanTree_mk, Bool.and_eq_true] at hc0
      have hkids := List.all_eq_true.1 hc0.2
      simp only [deleteF] at h
      split at h
      · -- prefix mismatch: the node is returned untouched
        simp only [Except.ok.injEq, Prod.mk.injEq] at h
        rw [← h.2]
        exact hc
      · split at h
        · -- terminal branch: the resulting dirty flag is always false
          split at h
          · exact Except.noConfusion h
          · rename_i vals1 d1 hsort
            have hd1 : d1 = false := sortValues_flag_false o tvals dirty vals1 d1 hsort
            split at h
            · exact Except.noConfusion h
            · split at h
              · simp only [Except.ok.injEq, Prod.mk.injEq] at h
                rw [← h.2, cleanTree_mk, Bool.and_eq_true]
                exact ⟨by simp [hd1], hc0.2⟩
              · split at h
                · simp only [Except.ok.injEq, Prod.mk.injEq] at h
                  rw [← h.2, cleanTree_mk, Bool.and_eq_true]
                  exact ⟨by simp [hd1], hc0.2⟩
                · simp only [Except.ok.injEq, Prod.mk.injEq] at h
                  rw [← h.2, cleanTree_mk, Bool.and_eq_true]
                  exact ⟨by simp [hd1], hc0.2⟩
        · rename_i hbr
          split at h
          · -- internal-value branch: the node stays branching
            simp only [Except.ok.injEq, Prod.mk.injEq] at h
            rw [← h.2, cleanTree_mk, Bool.and_eq_true]
            refine ⟨?_, hc0.2⟩
            have hb : isBr = true := by
              cases isBr
              · exact absurd rfl hbr
              · rfl
            simp [hb]
          · -- recursive branch
            split at h
            · simp only [Except.ok.injEq, Prod.mk.injEq] at h
              rw [← h.2]
              exact hc
            · rename_i c hlook
              split at h
              · exact Except.noConfusion h
              · rename_i ret c1 hrec
                obtain ⟨k0, hk0⟩ := edLookup_mem hlook
                have hcc : cleanTree c = true := hkids (k0, c) hk0
                have hc1 : cleanTree c1 = true := ih c key filter ret c1 hcc hrec
                have hnode1 :
                    cleanTree (RNode.mk skip isBr
                      (edSetEntries es (some (o.charAtK key (o.keyLen skip))) c1)
                      elen tvals ival dirty) = true := by
                  rw [cleanTree_mk, Bool.and_eq_true]
                  refine ⟨hc0.1, List.all_eq_true.2 ?_⟩
                  intro p hp
                  rcases mem_edSetEntries hp with h1 | h1
                  · rw [h1]
                    exact hc1
                  · exact hkids p h1
                split at h
                · simp only [Except.ok.injEq, Prod.mk.injEq] at h
                  rw [← h.2]
                  exact hnode1
                · split at h
                  · exact Except.noConfusion h
                  · rename_i n2 hcomp
                    simp only [Except.ok.injEq, Prod.mk.injEq] at h
                    rw [← h.2]
                    exact compactF_clean o fuel _ _ c1 n2 hnode1 hcomp

/-- C6 amended: after a top-level delete that returns, whenever the root
it leaves is a terminal node with an empty bin, that root's skip has been
reset to the domain's empty prefix and its dirty flag is false (the
pre-state only needs every empty terminal in the tree clean, which holds
in every reachable tree).  The counterexample above shows the rest of
the claim — that deleting the last value always produces such a root —
is false. -/
theorem c6_amended_reset_when_terminal (o : Opts K B U) [DecidableEq U]
    (fuel : Nat) (root : RNode K B U) (key : K)
    (filter : Option (Option (JVal K B) → Bool)) (r : Option (Res K B))
    (root1 : RNode K B U)
    (hclean : cleanTree root = true)
    (hdel : trieDeleteK o fuel root key filter = .ok (r, root1))
    (hterm : root1.isBranch = false) (hempty : root1.tvals = []) :
    root1.skip = o.emptyPfx ∧ root1.dirty = false := by
  unfold trieDeleteK at hdel
  split at hdel
  · exact Except.noConfusion hdel
  · rename_i ret root0 hrec
    have hclean0 : cleanTree root0 = true :=
      deleteF_clean o fuel root key filter ret root0 hclean hrec
    cases root0 with
    | mk s0 b0 es0 el0 tv0 iv0 d0 =>
      rw [cleanTree_mk, Bool.and_eq_true] at hclean0
      split at hdel
      · rename_i hcond
        simp only [RNode.isBranch, RNode.tvals, RNode.edges, RNode.elen, RNode.ival,
          RNode.dirty, Bool.and_eq_true, decide_eq_true_eq, List.isEmpty_iff] at hcond
        simp only [Except.ok.injEq, Prod.mk.injEq] at hdel
        rw [← hdel.2]
        refine ⟨rfl, ?_⟩
        -- dirty: root0 was a terminal with an empty bin, and the tree is clean
        have hone := hclean0.1
        rw [hcond.1, hcond.2] at hone
        simpa [RNode.dirty] using hone
      · simp only [Except.ok.injEq, Prod.mk.injEq] at hdel
        rename_i hcond
        rw [← hdel.2] at hterm hempty
        exfalso
        apply hcond
        simp only [RNode.isBranch] at hterm
        simp only [RNode.tvals] at hempty
        rw [hterm, hempty]
        rfl

/-- Witness for the amended C6 theorem: a string-attr trie holding the
single value {k:"a"}; deleting "a" empties the root, which comes out
with skip reset and dirty clear. -/
theorem c6_amended_reset_witness :
    (RNode.mk "" false [] 0 [] none false : RNode String AVal String).skip
        = (saOpts true 256).emptyPfx
    ∧ (RNode.mk "" false [] 0 [] none false : RNode String AVal String).dirty = false :=
  c6_amended_reset_when_terminal (saOpts true 256) 10
    (.mk "" false [] 0 [.base ⟨"a", 1⟩] none false) "a" none
    (some (.one (.base ⟨"a", 1⟩)))
    (.mk "" false [] 0 [] none false)
    (by rw [cleanTree_mk]; rfl) rfl rfl rfl

/-- The result shaping C10 describes, written from the claim: a
MultiValue hit is replaced by its member list, filtered when a filter is
supplied, and coerced by survivor count (0 → absent, 1 → the bare value,
≥ 2 → an array); any other hit — including the absent result of a miss —
is passed to the filter and kept as-is when it passes, absent when it is
rejected. -/
def getPost (ret : Option (JVal K B)) (filter : Option (Option (JVal K B) → Bool)) :
    Option (Res K B) :=
  match ret with
  | some (.mv _ vs) =>
    let survivors :=
      match filter with
      | none => vs
      | some f => vs.filter (fun x => f (some x))
    match survivors with
    | [] => none
    | [x] => some (.one x)
    | xs => some (.many xs)
  | _ => if filterPass filter ret then ret.map Res.one else none

/-- C10: Trie.get is exactly the node-level search followed by the
shaping getPost describes — MultiValue hits coerced by survivor count,
every other result (a miss included) passed through the filter. -/
theorem c10_get_postprocessing (o : Opts K B U) [DecidableEq U] (fuel : Nat)
    (root : RNode K B U) (key : K) (filter : Option (Option (JVal K B) → Bool)) :
    trieGetK o fuel root key filter
      = (getF o fuel root key).map (fun p => (getPost p.1 filter, p.2)) := by
  unfold trieGetK getPost
  cases hg : getF o fuel root key with
  | error e => rfl
  | ok p =>
    obtain ⟨ret, root1⟩ := p
    cases ret with
    | none => simp [Except.map, filterPass]
    | some v =>
      cases v with
      | base b =>
        simp only [Except.map]
        by_cases h : filterPass filter (some (JVal.base b)) = true <;> simp [h]
      | mv ck vs =>
        cases filter with
        | none => simp [Except.map, coerceRes]
        | some f => simp [Except.map, coerceRes]

/-! # Claim C8 — the bin bound

Every terminal bin holds at most binSize entries after any public
operation returns (hence at most binSize distinct keys).  The proof is a
preservation argument over the fuelled engine: whenever an operation
returns normally, the bound carries over — in particular _explode only
leaves a terminal bin in place when it fits, and builds strictly smaller
children otherwise. -/

/-- Apply a node-local check to every node of a tree. -/
def nodeAll (p : RNode K B U → Bool) : RNode K B U → Bool
  | .mk s b es el tv iv d =>
    p (.mk s b es el tv iv d) && es.attach.all (fun q => nodeAll p q.1.2)
decreasing_by
  obtain ⟨⟨u, c⟩, hmem⟩ := q
  have h1 := List.sizeOf_lt_of_mem hmem
  simp only [Prod.mk.sizeOf_spec] at h1
  simp only [RNode.mk.sizeOf_spec]
  omega

theorem nodeAll_mk (p : RNode K B U → Bool) (s : K) (b : Bool)
    (es : List (Option U × RNode K B U)) (el : Nat) (tv : List (JVal K B))
    (iv : Option (JVal K B)) (d : Bool) :
    nodeAll p (.mk s b es el tv iv d)
      = (p (.mk s b es el tv iv d) && es.all (fun q => nodeAll p q.2)) := by
  rw [nodeAll]
  exact congrArg _ (list_all_attach es fun q => nodeAll p q.2)

/-- The local bin-size check: a terminal bin holds at most bs entries. -/
def binLenOK (bs : Nat) (n : RNode K B U) : Bool :=
  n.isBranch || n.tvals.length ≤ bs

/-- Every terminal bin of the tree holds at most bs entries. -/
def allBins (bs : Nat) : RNode K B U → Bool := nodeAll (binLenOK bs)

/-- The number of distinct keys among the entries of a bin. -/
def distinctKeys [DecidableEq K] (o : Opts K B U) (l : List (JVal K B)) : Nat :=
  (l.map o.getKey).dedup.length

/-- The claim's local check: at most bs distinct keys in a terminal bin. -/
def binDistinctOK [DecidableEq K] (o : Opts K B U) (bs : Nat) (n : RNode K B U) : Bool :=
  n.isBranch || distinctKeys o n.tvals ≤ bs

/-- Monotonicity of nodeAll in the local check, by strong induction on
the tree size. -/
theorem nodeAll_mono (p q : RNode K B U → Bool)
    (hpq : ∀ n, p n = true → q n = true) :
    ∀ n, nodeAll p n = true → nodeAll q n = true := by
  suffices h : ∀ (k : Nat) (n : RNode K B U), sizeOf n ≤ k →
      nodeAll p n = true → nodeAll q n = true by
    intro n
    exact h (sizeOf n) n (Nat.le_refl _)
  intro k
  induction k with
  | zero =>
    intro n hs
    cases n with
    | mk s b es el tv iv d =>
      simp [RNode.mk.sizeOf_spec] at hs
  | succ k ih =>
    intro n hs hp
    cases n with
    | mk s b es el tv iv d =>
      rw [nodeAll_mk] at hp ⊢
      rw [Bool.and_eq_true] at hp ⊢
      refine ⟨hpq _ hp.1, List.all_eq_true.2 ?_⟩
      intro x hx
      have hsx : sizeOf x.2 ≤ k := by
        have h1 := List.sizeOf_lt_of_mem hx
        obtain ⟨u, c⟩ := x
        show sizeOf c ≤ k
        simp only [Prod.mk.sizeOf_spec] at h1
        simp only [RNode.mk.sizeOf_spec] at hs
        omega
      exact ih x.2 hsx (List.all_eq_true.1 hp.2 x hx)

theorem distinctKeys_le_length [DecidableEq K] (o : Opts K B U) (l : List (JVal K B)) :
    distinctKeys o l ≤ l.length := by
  unfold distinctKeys
  calc (l.map o.getKey).dedup.length ≤ (l.map o.getKey).length :=
        (l.map o.getKey).dedup_sublist.length_le
    _ = l.length := l.length_map o.getKey

theorem insSorted_length (c : α → α → CmpRes) (x : α) (l : List α) :
    (insSorted c x l).length = l.length + 1 := by
  induction l with
  | nil => rfl
  | cons y ys ih =>
    unfold insSorted
    split
    · simp [ih]
    · simp

theorem sortByC_length (c : α → α → CmpRes) (l : List α) :
    (sortByC c l).length = l.length := by
  suffices h : ∀ acc : List α,
      (l.foldl (fun acc x => insSorted c x acc) acc).length = acc.length + l.length by
    simpa using h []
  induction l with
  | nil => intro acc; simp
  | cons y ys ih =>
    intro acc
    simp only [List.foldl_cons, ih, insSorted_length, List.length_cons]
    omega

theorem dedupRun_length (o : Opts K B U) :
    ∀ (rest : List (JVal K B)) (cur : JVal K B) (acc l : List (JVal K B)),
      dedupRun o cur acc rest = .ok l → l.length ≤ acc.length + 1 + rest.length := by
  intro rest
  induction rest with
  | nil =>
    intro cur acc l h
    unfold dedupRun at h
    simp only [Except.ok.injEq] at h
    rw [← h]
    simp
  | cons y ys ih =>
    intro cur acc l h
    unfold dedupRun at h
    split at h
    · split at h
      · have := ih _ _ _ h
        simp only [List.length_cons] at this ⊢
        omega
      · exact Except.noConfusion h
    · have := ih _ _ _ h
      simp only [List.length_cons] at this ⊢
      omega

theorem sortValues_length (o : Opts K B U) (tv : List (JVal K B)) (d : Bool)
    (v1 : List (JVal K B)) (d1 : Bool) (h : sortValues o tv d = .ok (v1, d1)) :
    v1.length ≤ tv.length := by
  unfold sortValues at h
  split at h
  · split at h
    · rename_i hs
      have h2 := congrArg List.length hs
      rw [sortByC_length] at h2
      simp only [Except.ok.injEq, Prod.mk.injEq] at h
      rw [← h.1]
      simp only [List.length_nil] at h2 ⊢
      omega
    · rename_i x hs
      have h2 := congrArg List.length hs
      rw [sortByC_length] at h2
      simp only [Except.ok.injEq, Prod.mk.injEq] at h
      rw [← h.1]
      simp only [List.length_cons, List.length_nil] at h2 ⊢
      omega
    · rename_i x y ys hs
      split at h
      · rename_i l hr
        have hlen := dedupRun_length o _ _ _ _ hr
        have h2 := congrArg List.length hs
        rw [sortByC_length] at h2
        simp only [Except.ok.injEq, Prod.mk.injEq] at h
        rw [← h.1]
        simp only [List.length_cons, List.length_nil] at hlen h2 ⊢
        omega
      · exact Except.noConfusion h
  · simp only [Except.ok.injEq, Prod.mk.injEq] at h
    rw [← h.1]

theorem allBins_mk (bs : Nat) (s : K) (b : Bool) (es : List (Option U × RNode K B U))
    (el : Nat) (tv : List (JVal K B)) (iv : Option (JVal K B)) (d : Bool) :
    allBins bs (.mk s b es el tv iv d)
      = ((b || decide (tv.length ≤ bs)) && es.all (fun q => allBins bs q.2)) := by
  unfold allBins
  rw [nodeAll_mk]
  rfl

/-- Node construction and explosion leave every terminal bin within
binSize: either the bin already fits and stays, or the node branches and
every child is built recursively. -/
theorem build_allBins [DecidableEq U] (o : Opts K B U) :
    ∀ fuel : Nat,
      (∀ (vs : List (JVal K B)) (n : RNode K B U),
        mkNodeF o fuel vs = .ok n → allBins o.binSize n = true)
      ∧ (∀ (node n : RNode K B U),
        node.edges.all (fun q => allBins o.binSize q.2) = true →
        explodeF o fuel node = .ok n → allBins o.binSize n = true)
      ∧ (∀ (pairs : List (Option U × JVal K B)) (acc : List (Option U × RNode K B U))
          (el : Nat) (es1 : List (Option U × RNode K B U)) (el1 : Nat),
        acc.all (fun q => allBins o.binSize q.2) = true →
        buildRunsF o fuel pairs acc el = .ok (es1, el1) →
        es1.all (fun q => allBins o.binSize q.2) = true) := by
  intro fuel
  induction fuel with
  | zero =>
    exact ⟨fun _ _ h => Except.noConfusion h, fun _ _ _ h => Except.noConfusion h,
      fun _ _ _ _ _ _ h => Except.noConfusion h⟩
  | succ fuel ih =>
    obtain ⟨ihmk, ihex, ihbr⟩ := ih
    refine ⟨?_, ?_, ?_⟩
    · intro vs n h
      simp only [mkNodeF] at h
      exact ihex _ n (by simp [RNode.edges]) h
    · intro node n hkids h
      cases node with
      | mk s b es el tv iv d =>
        simp only [RNode.edges] at hkids
        simp only [explodeF] at h
        split at h
        · rename_i hsmall
          simp only [Except.ok.injEq] at h
          rw [← h, allBins_mk, Bool.and_eq_true]
          exact ⟨by simp [hsmall], hkids⟩
        · rename_i hbig
          split at h
          · exact Except.noConfusion h
          · rename_i vals1 d1 hsort
            split at h
            · rename_i hsmall2
              simp only [Except.ok.injEq] at h
              rw [← h, allBins_mk, Bool.and_eq_true]
              exact ⟨by simp [hsmall2], hkids⟩
            · split at h
              · simp only [Except.ok.injEq] at h
                rw [← h, allBins_mk, Bool.and_eq_true]
                exact ⟨by simp, by simp⟩
              · rename_i x0 v0 rest hpair
                split at h
                · -- internal value pulled out
                  split at h
                  · exact Except.noConfusion h
                  · rename_i es1 el1 hbuild
                    simp only [Except.ok.injEq] at h
                    rw [← h, allBins_mk, Bool.and_eq_true]
                    exact ⟨by simp, ihbr _ _ _ _ _ (by simp) hbuild⟩
                · split at h
                  · exact Except.noConfusion h
                  · rename_i es1 el1 hbuild
                    simp only [Except.ok.injEq] at h
                    rw [← h, allBins_mk, Bool.and_eq_true]
                    exact ⟨by simp, ihbr _ _ _ _ _ (by simp) hbuild⟩
    · intro pairs acc el es1 el1 hacc h
      cases pairs with
      | nil =>
        simp only [buildRunsF] at h
        simp only [Except.ok.injEq, Prod.mk.injEq] at h
        rw [← h.1]
        exact hacc
      | cons hd tl =>
        obtain ⟨x, v⟩ := hd
        simp only [buildRunsF] at h
        split at h
        · exact Except.noConfusion h
        · rename_i child hchild
          have hcb : allBins o.binSize child = true := ihmk _ _ hchild
          refine ihbr _ _ _ _ _ ?_ h
          rw [List.all_eq_true]
          intro q hq
          rcases mem_edSetEntries hq with h1 | h1
          · rw [h1]
            exact hcb
          · exact List.all_eq_true.1 hacc q h1

/-- Node.add takes a tree whose bins all fit to a tree whose bins all
fit: the terminal push is followed by _explode, a fresh single-value
child is built through mkNode, and the split case recurses on a branching
node whose only child is the old node. -/
theorem addF_allBins [DecidableEq U] (o : Opts K B U) :
    ∀ (fuel : Nat) (node : RNode K B U) (key : K) (value : JVal K B)
      (n1 : RNode K B U), allBins o.binSize node = true →
      addF o fuel node key value = .ok n1 → allBins o.binSize n1 = true := by
  intro fuel
  induction fuel with
  | zero => intro node key value n1 _ h; exact Except.noConfusion h
  | succ fuel ih =>
    intro node key value n1 hb h
    cases node with
    | mk skip isBr es elen tvals ival dirty =>
      have hbp := hb
      rw [allBins_mk, Bool.and_eq_true] at hbp
      have hkids := List.all_eq_true.1 hbp.2
      simp only [addF] at h
      split at h
      · -- terminal: _insert keeps the edge table, then _explode runs
        refine (build_allBins o fuel).2.1 _ _ ?_ h
        simp only [insertT, RNode.edges]
        exact hbp.2
      · split at h
        · split at h
          · -- internal-value assignment: bin and edges untouched
            split at h
            · exact Except.noConfusion h
            · simp only [Except.ok.injEq] at h
              rw [← h, allBins_mk, Bool.and_eq_true]
              exact ⟨hbp.1, hbp.2⟩
          · split at h
            · -- existing child: recurse, write the result back
              rename_i c hlook
              split at h
              · exact Except.noConfusion h
              · rename_i c1 hrec
                simp only [Except.ok.injEq] at h
                rw [← h, allBins_mk, Bool.and_eq_true]
                obtain ⟨k0, hk0⟩ := edLookup_mem hlook
                have hc1 := ih c key value c1 (hkids (k0, c) hk0) hrec
                refine ⟨hbp.1, List.all_eq_true.2 ?_⟩
                intro q hq
                rcases mem_edSetEntries hq with h1 | h1
                · rw [h1]
                  exact hc1
                · exact hkids q h1
            · -- no child yet: a one-value node is built for the unit
              split at h
              · exact Except.noConfusion h
              · rename_i child hchild
                simp only [Except.ok.injEq] at h
                rw [← h, allBins_mk, Bool.and_eq_true]
                have hcb := (build_allBins o fuel).1 _ _ hchild
                refine ⟨hbp.1, List.all_eq_true.2 ?_⟩
                intro q hq
                rcases mem_edSetEntries hq with h1 | h1
                · rw [h1]
                  exact hcb
                · exact hkids q h1
        · -- split: recurse on the two-level node wrapping the old one
          refine ih _ key value n1 ?_ h
          rw [allBins_mk, Bool.and_eq_true]
          refine ⟨by simp, List.all_eq_true.2 ?_⟩
          intro q hq
          rcases mem_edSetEntries hq with h1 | h1
          · rw [h1, allBins_mk, Bool.and_eq_true]
            exact ⟨hbp.1, hbp.2⟩
          · exact absurd h1 (List.not_mem_nil q)

/-- Node.get only rewrites a hit terminal's bin through _sortValues,
which never grows it, so the bin bound is preserved. -/
theorem getF_allBins [DecidableEq U] (o : Opts K B U) :
    ∀ (fuel : Nat) (node : RNode K B U) (key : K) (r : Option (JVal K B))
      (n1 : RNode K B U), allBins o.binSize node = true →
      getF o fuel node key = .ok (r, n1) → allBins o.binSize n1 = true := by
  intro fuel
  induction fuel with
  | zero => intro node key r n1 _ h; exact Except.noConfusion h
  | succ fuel ih =>
    intro node key r n1 hb h
    cases node with
    | mk skip isBr es elen tvals ival dirty =>
      have hbp := hb
      rw [allBins_mk, Bool.and_eq_true] at hbp
      have hkids := List.all_eq_true.1 hbp.2
      simp only [getF] at h
      split at h
      · simp only [Except.ok.injEq, Prod.mk.injEq] at h
        rw [← h.2]
        exact hb
      · split at h
        · -- terminal search: the sorted bin is no longer than before
          rename_i hterm
          split at h
          · exact Except.noConfusion h
          · rename_i vals1 d1 hsort
            split at h
            · exact Except.noConfusion h
            · simp only [Except.ok.injEq, Prod.mk.injEq] at h
              rw [← h.2, allBins_mk, Bool.and_eq_true]
              refine ⟨?_, hbp.2⟩
              have hlen := sortValues_length o tvals dirty vals1 d1 hsort
              have hb1 : tvals.length ≤ o.binSize := by
                have h1 := hbp.1
                rw [hterm] at h1
                simpa using h1
              rw [hterm]
              simp only [Bool.false_or, decide_eq_true_eq]
              omega
        · split at h
          · simp only [Except.ok.injEq, Prod.mk.injEq] at h
            rw [← h.2]
            exact hb
          · split at h
            · simp only [Except.ok.injEq, Prod.mk.injEq] at h
              rw [← h.2]
              exact hb
            · rename_i c hlook
              split at h
              · exact Except.noConfusion h
              · rename_i r1 c1 hrec
                simp only [Except.ok.injEq, Prod.mk.injEq] at h
                rw [← h.2, allBins_mk, Bool.and_eq_true]
                obtain ⟨k0, hk0⟩ := edLookup_mem hlook
                have hc1 := ih c key r1 c1 (hkids (k0, c) hk0) hrec
                refine ⟨hbp.1, List.all_eq_true.2 ?_⟩
                intro q hq
                rcases mem_edSetEntries hq with h1 | h1
                · rw [h1]
                  exact hc1
                · exact hkids q h1

/-- _compact preserves the bin bound when binSize is at least 1: the
collapse path leaves a bin of at most one entry, the splice path installs
an existing child, and the remaining paths only shrink the entry list. -/
theorem compactF_allBins [DecidableEq U] (o : Opts K B U) (hbs : 1 ≤ o.binSize)
    (fuel : Nat) (node : RNode K B U) (path : Option U) (child : RNode K B U)
    (n2 : RNode K B U) (hb : allBins o.binSize node = true)
    (h : compactF o fuel node path child = .ok n2) : allBins o.binSize n2 = true := by
  cases fuel with
  | zero => exact Except.noConfusion h
  | succ fuel =>
    cases node with
    | mk skip isBr es elen tvals ival dirty =>
      have hbp := hb
      rw [allBins_mk, Bool.and_eq_true] at hbp
      have hkids := List.all_eq_true.1 hbp.2
      simp only [compactF] at h
      split at h
      · split at h
        · -- collapse: the bin holds at most the internal value
          rw [← Except.ok.inj h]
          cases ival with
          | none =>
            rw [allBins_mk]
            simp
          | some iv =>
            rw [allBins_mk]
            by_cases ht : o.truthy iv = true
            · simp [ht, hbs]
            · simp [ht]
        · split at h
          · split at h
            · exact Except.noConfusion h
            · rename_i c hslot
              rw [← Except.ok.inj h]
              obtain ⟨k, hk⟩ := edSlot_mem hslot
              exact hkids (k, c) (mem_edDelEntries hk)
          · rw [← Except.ok.inj h, allBins_mk, Bool.and_eq_true]
            refine ⟨hbp.1, List.all_eq_true.2 ?_⟩
            intro p hp
            exact hkids p (mem_edDelEntries hp)
      · rw [← Except.ok.inj h]
        exact hb

/-- Node.delete never grows a bin: the terminal branch sorts (never
growing), then erases, sets or keeps a slot; the recursive branch writes
the shrunken child back and may compact. -/
theorem deleteF_allBins [DecidableEq U] (o : Opts K B U) (hbs : 1 ≤ o.binSize) :
    ∀ (fuel : Nat) (node : RNode K B U) (key : K)
      (filter : Option (Option (JVal K B) → Bool)) (r : Option (Res K B))
      (n1 : RNode K B U), allBins o.binSize node = true →
      deleteF o fuel node key filter = .ok (r, n1) → allBins o.binSize n1 = true := by
  intro fuel
  induction fuel with
  | zero => intro node key filter r n1 _ h; exact Except.noConfusion h
  | succ fuel ih =>
    intro node key filter r n1 hb h
    cases node with
    | mk skip isBr es elen tvals ival dirty =>
      have hbp := hb
      rw [allBins_mk, Bool.and_eq_true] at hbp
      have hkids := List.all_eq_true.1 hbp.2
      simp only [deleteF] at h
      split at h
      · simp only [Except.ok.injEq, Prod.mk.injEq] at h
        rw [← h.2]
        exact hb
      · split at h
        · rename_i hterm
          split at h
          · exact Except.noConfusion h
          · rename_i vals1 d1 hsort
            have hlen := sortValues_length o tvals dirty vals1 d1 hsort
            have hb1 : tvals.length ≤ o.binSize := by
              have h1 := hbp.1
              rw [hterm] at h1
              simpa using h1
            have hv1 : vals1.length ≤ o.binSize := le_trans hlen hb1
            split at h
            · exact Except.noConfusion h
            · split at h
              · simp only [Except.ok.injEq, Prod.mk.injEq] at h
                rw [← h.2, allBins_mk, Bool.and_eq_true]
                refine ⟨?_, hbp.2⟩
                rw [hterm]
                simp only [Bool.false_or, decide_eq_true_eq]
                exact hv1
              · rename_i idx hfound
                split at h
                · simp only [Except.ok.injEq, Prod.mk.injEq] at h
                  rw [← h.2, allBins_mk, Bool.and_eq_true]
                  refine ⟨?_, hbp.2⟩
                  rw [hterm]
                  simp only [Bool.false_or, decide_eq_true_eq]
                  exact hv1
                · simp only [Except.ok.injEq, Prod.mk.injEq] at h
                  rw [← h.2, allBins_mk, Bool.and_eq_true]
                  refine ⟨?_, hbp.2⟩
                  rw [hterm]
                  simp only [Bool.false_or, decide_eq_true_eq]
                  split
                  · exact le_trans (List.eraseIdx_sublist vals1 idx).length_le hv1
                  · rw [List.length_set]
                    exact hv1
                  · exact hv1
        · split at h
          · simp only [Except.ok.injEq, Prod.mk.injEq] at h
            rw [← h.2, allBins_mk, Bool.and_eq_true]
            exact ⟨hbp.1, hbp.2⟩
          · split at h
            · simp only [Except.ok.injEq, Prod.mk.injEq] at h
              rw [← h.2]
              exact hb
            · rename_i c hlook
              split at h
              · exact Except.noConfusion h
              · rename_i ret c1 hrec
                obtain ⟨k0, hk0⟩ := edLookup_mem hlook
                have hc1 := ih c key filter ret c1 (hkids (k0, c) hk0) hrec
                have hnode1 :
                    allBins o.binSize (RNode.mk skip isBr
                      (edSetEntries es (some (o.charAtK key (o.keyLen skip))) c1)
                      elen tvals ival dirty) = true := by
                  rw [allBins_mk, Bool.and_eq_true]
                  refine ⟨hbp.1, List.all_eq_true.2 ?_⟩
                  intro p hp
                  rcases mem_edSetEntries hp with h1 | h1
                  · rw [h1]
                    exact hc1
                  · exact hkids p h1
                split at h
                · simp only [Except.ok.injEq, Prod.mk.injEq] at h
                  rw [← h.2]
                  exact hnode1
                · split at h
                  · exact Except.noConfusion h
                  · rename_i n2 hcomp
                    simp only [Except.ok.injEq, Prod.mk.injEq] at h
                    rw [← h.2]
                    exact compactF_allBins o hbs fuel _ _ c1 n2 hnode1 hcomp

theorem trieGetK_allBins [DecidableEq U] (o : Opts K B U) (fuel : Nat)
    (root : RNode K B U) (key : K) (filter : Option (Option (JVal K B) → Bool))
    (r : Option (Res K B)) (root1 : RNode K B U)
    (hb : allBins o.binSize root = true)
    (h : trieGetK o fuel root key filter = .ok (r, root1)) :
    allBins o.binSize root1 = true := by
  unfold trieGetK at h
  split at h
  · exact Except.noConfusion h
  · rename_i ret root0 hg
    have hb0 := getF_allBins o fuel root key ret root0 hb hg
    split at h
    · simp only [Except.ok.injEq, Prod.mk.injEq] at h
      rw [← h.2]
      exact hb0
    · split at h
      · simp only [Except.ok.injEq, Prod.mk.injEq] at h
        rw [← h.2]
        exact hb0
      · simp only [Except.ok.injEq, Prod.mk.injEq] at h
        rw [← h.2]
        exact hb0

theorem trieDeleteK_allBins [DecidableEq U] (o : Opts K B U) (hbs : 1 ≤ o.binSize)
    (fuel : Nat) (root : RNode K B U) (key : K)
    (filter : Option (Option (JVal K B) → Bool)) (r : Option (Res K B))
    (root1 : RNode K B U) (hb : allBins o.binSize root = true)
    (h : trieDeleteK o fuel root key filter = .ok (r, root1)) :
    allBins o.binSize root1 = true := by
  unfold trieDeleteK at h
  split at h
  · exact Except.noConfusion h
  · rename_i ret root0 hd
    have hb0 := deleteF_allBins o hbs fuel root key filter ret root0 hb hd
    cases root0 with
    | mk s0 b0 es0 el0 tv0 iv0 d0 =>
      split at h
      · simp only [Except.ok.injEq, Prod.mk.injEq] at h
        rw [← h.2]
        simp only [RNode.isBranch, RNode.edges, RNode.elen, RNode.tvals, RNode.ival,
          RNode.dirty]
        rw [allBins_mk] at hb0 ⊢
        exact hb0
      · simp only [Except.ok.injEq, Prod.mk.injEq] at h
        rw [← h.2]
        exact hb0

/-- A bin within binSize holds at most binSize distinct keys. -/
theorem allBins_to_distinct [DecidableEq K] (o : Opts K B U) (n : RNode K B U)
    (h : allBins o.binSize n = true) :
    nodeAll (binDistinctOK o o.binSize) n = true := by
  refine nodeAll_mono _ _ ?_ n h
  intro m hm
  unfold binLenOK at hm
  unfold binDistinctOK
  rw [Bool.or_eq_true] at hm ⊢
  rcases hm with h1 | h1
  · exact Or.inl h1
  · right
    rw [decide_eq_true_eq] at h1 ⊢
    exact le_trans (distinctKeys_le_length o m.tvals) h1

/-- C8: the bin bound.  With binSize at least 1 the empty root satisfies
the bound, and every public operation (add, get, delete) that returns
normally takes a tree all of whose terminal bins hold at most binSize
entries to another such tree — in particular every terminal bin then
holds at most binSize distinct keys.  A bin exceeds the bound only
transiently inside add, before _explode runs on the hit terminal. -/
theorem c8_bin_bound [DecidableEq K] [DecidableEq U] (o : Opts K B U)
    (hbs : 1 ≤ o.binSize) :
    (allBins o.binSize (emptyRoot o) = true
      ∧ nodeAll (binDistinctOK o o.binSize) (emptyRoot o) = true)
    ∧ (∀ (fuel : Nat) (root : RNode K B U) (value : JVal K B) (root1 : RNode K B U),
        allBins o.binSize root = true →
        trieAdd o fuel root value = .ok root1 →
        allBins o.binSize root1 = true
          ∧ nodeAll (binDistinctOK o o.binSize) root1 = true)
    ∧ (∀ (fuel : Nat) (root : RNode K B U) (key : K)
        (filter : Option (Option (JVal K B) → Bool)) (r : Option (Res K B))
        (root1 : RNode K B U),
        allBins o.binSize root = true →
        trieGetK o fuel root key filter = .ok (r, root1) →
        allBins o.binSize root1 = true
          ∧ nodeAll (binDistinctOK o o.binSize) root1 = true)
    ∧ (∀ (fuel : Nat) (root : RNode K B U) (key : K)
        (filter : Option (Option (JVal K B) → Bool)) (r : Option (Res K B))
        (root1 : RNode K B U),
        allBins o.binSize root = true →
        trieDeleteK o fuel root key filter = .ok (r, root1) →
        allBins o.binSize root1 = true
          ∧ nodeAll (binDistinctOK o o.binSize) root1 = true) := by
  have hroot : allBins o.binSize (emptyRoot o) = true := by
    rw [emptyRoot, allBins_mk]
    simp
  refine ⟨⟨hroot, allBins_to_distinct o _ hroot⟩, ?_, ?_, ?_⟩
  · intro fuel root value root1 hb hop
    unfold trieAdd at hop
    have h1 := addF_allBins o fuel root (o.getKey value) value root1 hb hop
    exact ⟨h1, allBins_to_distinct o _ h1⟩
  · intro fuel root key filter r root1 hb hop
    have h1 := trieGetK_allBins o fuel root key filter r root1 hb hop
    exact ⟨h1, allBins_to_distinct o _ h1⟩
  · intro fuel root key filter r root1 hb hop
    have h1 := trieDeleteK_allBins o hbs fuel root key filter r root1 hb hop
    exact ⟨h1, allBins_to_distinct o _ h1⟩

/-- Witness for C8 at the string-attr configuration with binSize 1. -/
theorem c8_bin_bound_witness :
    1 ≤ (saOpts true 1).binSize
    ∧ allBins (saOpts true 1).binSize (emptyRoot (saOpts true 1)) = true :=
  ⟨by decide, ((c8_bin_bound (saOpts true 1) (by decide)).1).1⟩

end FastTrie
